import Mathlib

/-!
Verification of the forge-lib agent deployment engine.

Rust strings and string slices are modelled as lists of characters
(`Str`); the functions below are shallow embeddings of the functions in
`src/parse/mod.rs`, `src/deploy/mod.rs`, `src/deploy/provider.rs`,
`src/sidecar/mod.rs` and `src/manifest/mod.rs`.  The filesystem is
modelled as a finite map from path strings to file contents plus a set
of symlink paths.
-/

set_option autoImplicit false
set_option maxRecDepth 100000
set_option maxHeartbeats 1000000

namespace Forge

/-- Characters of a Rust string. -/
abbrev Str := List Char

/-- Characters of a Lean string literal, used to write `Str` constants. -/
def S (s : String) : Str := s.data

/-- Marker text of the legacy provenance line in `is_synced_from`. -/
def syncedFromMarker : Str := S "# synced-from: "

/-- ASCII uppercase letter test, as in Rust `char::is_ascii_uppercase`. -/
def isUpperAZ (c : Char) : Bool := 'A' ≤ c && c ≤ 'Z'

/-- ASCII lowercase letter test, as in Rust `char::is_ascii_lowercase`. -/
def isLowerAZ (c : Char) : Bool := 'a' ≤ c && c ≤ 'z'

/-- ASCII digit test, as in Rust `char::is_ascii_digit`. -/
def isDigit09 (c : Char) : Bool := '0' ≤ c && c ≤ '9'

/-- ASCII letter test. -/
def isAlphaAZ (c : Char) : Bool := isUpperAZ c || isLowerAZ c

/-- ASCII alphanumeric test, the character class `[a-zA-Z0-9]`. -/
def isAlnumAZ09 (c : Char) : Bool := isAlphaAZ c || isDigit09 c

/-- ASCII whitespace test, for Rust `str::trim`. -/
def isWS (c : Char) : Bool := c = ' ' || c = '\t' || c = '\n' || c = '\r'

/-- ASCII lowercasing of one character, as in Rust `char::to_ascii_lowercase`. -/
def toLowerAZ (c : Char) : Char :=
  if isUpperAZ c then Char.ofNat (c.toNat + 32) else c

/-- Rust `str::trim` restricted to ASCII whitespace. -/
def trimWS (s : Str) : Str :=
  ((s.dropWhile isWS).reverse.dropWhile isWS).reverse

/-- Helper for splitting: pushes a character onto the first piece. -/
def consHead (c : Char) : List Str → List Str
  | [] => [[c]]
  | l :: ls => (c :: l) :: ls

/-- Splits a character list at every newline; the result always has one
more piece than there are newlines. -/
def splitNLChar : Str → List Str
  | [] => [[]]
  | c :: cs => if c = '\n' then [] :: splitNLChar cs else consHead c (splitNLChar cs)

/-- Removes one trailing carriage return, as Rust `str::lines` does on
each newline-terminated line. -/
def dropTrailCR (l : Str) : Str :=
  if l.getLast? = some '\r' then l.dropLast else l

/-- Rust `str::lines`: pieces split at newlines, with a carriage return
stripped from newline-terminated pieces and the final piece dropped when
the string ends with a newline. -/
def rustLines (s : Str) : List Str :=
  let parts := splitNLChar s
  (parts.dropLast.map dropTrailCR) ++
    (match parts.getLast? with
     | some [] => []
     | some l => [l]
     | none => [])

/-- Concatenation of lines, each followed by a newline: the shape of
output built by repeated `writeln!`/`push_str(line); push('\n')`. -/
def joinNL : List Str → Str
  | [] => []
  | l :: ls => l ++ '\n' :: joinNL ls

/-- Index of the first occurrence of a pattern, as Rust `str::find`. -/
def findSubIdx (pat : Str) : Str → Option Nat
  | [] => if pat.isPrefixOf ([] : Str) then some 0 else none
  | c :: rest =>
      if pat.isPrefixOf (c :: rest) then some 0
      else (findSubIdx pat rest).map (· + 1)

/-- Substring containment, as Rust `str::contains`. -/
def hasSub (pat : Str) : Str → Bool
  | [] => pat.isPrefixOf ([] : Str)
  | c :: rest => pat.isPrefixOf (c :: rest) || hasSub pat rest

/-- Rust `strip_prefix('\n').unwrap_or(s)`: removes at most one leading
newline. -/
def stripLeadNL (s : Str) : Str :=
  match s with
  | '\n' :: rest => rest
  | _ => s

/-- Rust `Vec::join(", ")` over string pieces. -/
def joinCommaSpace : List Str → Str
  | [] => []
  | [x] => x
  | x :: rest => x ++ ',' :: ' ' :: joinCommaSpace rest

/-- Rust `str::split(", ")` on a two-character separator, used when the
Gemini renderer re-splits an already comma-joined tool list. -/
def splitCS : Str → List Str
  | [] => [[]]
  | ',' :: ' ' :: rest => [] :: splitCS rest
  | c :: rest => consHead c (splitCS rest)

/-- Rust `str::split(',')`. -/
def splitComma : Str → List Str
  | [] => [[]]
  | c :: rest => if c = ',' then [] :: splitComma rest else consHead c (splitComma rest)

/-- Boolean no-duplicates check on keys. -/
def nodupKeys : List Str → Bool
  | [] => true
  | k :: rest => !(rest.contains k) && nodupKeys rest

/-- Decimal digits of a natural number. -/
def natToStr (n : Nat) : Str := Nat.toDigits 10 n

/-- Decimal rendering of an integer. -/
def intToStr (n : Int) : Str :=
  if n < 0 then '-' :: natToStr n.natAbs else natToStr n.natAbs

/-! YAML value trees.  `YVal` models `serde_yaml::Value`; mappings keep
their entries as association lists. -/

/-- Model of `serde_yaml::Value`. -/
inductive YVal where
  | null : YVal
  | bool (b : Bool) : YVal
  | num (n : Int) : YVal
  | str (s : Str) : YVal
  | seq (l : List YVal) : YVal
  | map (m : List (Str × YVal)) : YVal

/-- Lookup of a string key in a YAML mapping, as
`Mapping::get(Value::String(k))`. -/
def lookupMap (m : List (Str × YVal)) (k : Str) : Option YVal :=
  (m.find? (fun p => p.1 == k)).map (·.2)

/-- Flat scalar rendering used inside `yamlEmit`. -/
def yamlEmitFlat : YVal → Str
  | .null => (S "null")
  | .bool b => if b then (S "true") else (S "false")
  | .num n => intToStr n
  | .str s => s
  | _ => []

/-- Rendering used for the structured-value fallback branches; a
simplified model of `serde_yaml::to_string` sufficient for flat values
(no claim in this development depends on this branch). -/
def yamlEmit : YVal → Str
  | .null => (S "null")
  | .bool b => if b then (S "true") else (S "false")
  | .num n => intToStr n
  | .str s => s
  | .seq l => joinNL (l.map (fun v => '-' :: ' ' :: yamlEmitFlat v))
  | .map m => joinNL (m.map (fun p => p.1 ++ ':' :: ' ' :: yamlEmitFlat p.2))

/-- Conversion of a YAML scalar to a string: the common match arm shape of
`fm_value` in `src/parse/mod.rs` and `normalize_value` in
`src/sidecar/mod.rs` (string, bool and number coerce to a string, null is
absent, structured values render and trim). -/
def scalarToStr : YVal → Option Str
  | .str s => some s
  | .bool b => some (if b then (S "true") else (S "false"))
  | .num n => some (intToStr n)
  | .null => none
  | v => some (trimWS (yamlEmit v))

/-- Keys accepted by the simple-mapping YAML fragment parser. -/
def simpleKeyOk (k : Str) : Bool :=
  !k.isEmpty && k.all (fun c => isAlnumAZ09 c || c = '.' || c = '_' || c = '-')

/-- Plain scalars accepted by the simple-mapping YAML fragment parser:
strings that `serde_yaml` is guaranteed to parse back as the identical
string scalar (leading ASCII letter, no YAML indicator characters, no
trailing space, not a boolean or null literal). -/
def simpleScalarOk (v : Str) : Bool :=
  (match v.head? with
   | some c => isAlphaAZ c
   | none => false) &&
  v.all (fun c => isAlnumAZ09 c || c = ' ' || c = '-' || c = '_' || c = '.' || c = '/' || c = ',') &&
  v.getLast? != some ' ' &&
  !(v == (S "true")) && !(v == (S "false")) &&
  !(v == (S "null"))

/-- Parse of one `key: value` line of the simple-mapping fragment. -/
def parseYamlLine (l : Str) : Option (Str × YVal) :=
  match findSubIdx [':'] l with
  | none => none
  | some i =>
      let key := l.take i
      let rest := l.drop (i + 1)
      match rest with
      | ' ' :: v =>
          if simpleKeyOk key && simpleScalarOk v then some (key, YVal.str v) else none
      | _ => none

/-- Modelled from the spec: the metadata block is parsed "as a structured
mapping" by the external `serde_yaml` library, which is not part of this
repository.  This parser covers the flat `key: value` fragment on which
`serde_yaml`'s behaviour is unambiguous and fails (returns `none`) on
everything else; callers already treat every parse failure as absence. -/
def parseSimpleYaml (s : Str) : Option YVal :=
  if s.isEmpty then some YVal.null
  else
    match (rustLines s).mapM parseYamlLine with
    | none => none
    | some pairs => if nodupKeys (pairs.map Prod.fst) then some (YVal.map pairs) else none

/-! Frontmatter parser, from `src/parse/mod.rs`. -/

/-- Size ceiling on parsed documents, from `src/parse/mod.rs`. -/
def MAX_CONTENT_SIZE : Nat := 256 * 1024

/-- Embedding of `split_frontmatter` in `src/parse/mod.rs`. -/
def split_frontmatter (content : Str) : Option (Str × Str) :=
  if content.length > MAX_CONTENT_SIZE then none
  else if !((S "---").isPrefixOf content) then none
  else
    let after1 := stripLeadNL (content.drop 3)
    if (S "---").isPrefixOf after1 then
      some ([], stripLeadNL (after1.drop 3))
    else
      match findSubIdx ('\n' :: S "---") after1 with
      | none => none
      | some e => some (after1.take e, stripLeadNL (after1.drop (e + 4)))

/-- Embedding of `fm_value` in `src/parse/mod.rs`. -/
def fm_value (content : Str) (key : Str) : Option Str :=
  match split_frontmatter content with
  | none => none
  | some (yamlText, _) =>
      match parseSimpleYaml yamlText with
      | none => none
      | some v =>
          match v with
          | .map m =>
              match lookupMap m key with
              | none => none
              | some kv => scalarToStr kv
          | _ => none

/-- Embedding of `fm_list` in `src/parse/mod.rs`. -/
def fm_list (content : Str) (key : Str) : Option Str :=
  match split_frontmatter content with
  | none => none
  | some (yamlText, _) =>
      match parseSimpleYaml yamlText with
      | none => none
      | some v =>
          match v with
          | .map m =>
              match lookupMap m key with
              | some (.seq l) =>
                  let items := l.filterMap (fun x =>
                    match x with
                    | .str s => some s
                    | .num n => some (intToStr n)
                    | .bool b => some (if b then (S "true") else (S "false"))
                    | _ => none)
                  if items.isEmpty then none else some (joinCommaSpace items)
              | some (.str s) => some s
              | _ => none
          | _ => none

/-- Embedding of `fm_body` in `src/parse/mod.rs`. -/
def fm_body (content : Str) : Str :=
  match split_frontmatter content with
  | some (_, body) => body
  | none => content

/-- Embedding of the anchored regular expression
`[A-Z][a-zA-Z0-9]{2,50}` anchored on both sides, from
`src/parse/mod.rs`. -/
def agent_name_matches (name : Str) : Bool :=
  match name with
  | [] => false
  | c :: rest =>
      isUpperAZ c && decide (2 ≤ rest.length) && decide (rest.length ≤ 50) &&
        rest.all isAlnumAZ09

/-- Embedding of `validate_agent_name` in `src/parse/mod.rs`. -/
def validate_agent_name (name : Str) : Except Str Unit :=
  if name.isEmpty then .error (S "agent name is empty")
  else if !agent_name_matches name then
    .error ((S "agent name ") ++ name ++ (S " is invalid"))
  else .ok ()

/-- Boolean success test for `validate_agent_name`. -/
def validateOk (name : Str) : Bool :=
  match validate_agent_name name with
  | .ok _ => true
  | .error _ => false

/-- Embedding of `is_synced_from` in `src/parse/mod.rs`. -/
def is_synced_from (content : Str) (expected : Str) : Bool :=
  (match fm_value content (S "source") with
   | some src => src == expected || ('/' :: expected).isSuffixOf src
   | none => false) ||
  (let expectedLine := syncedFromMarker ++ expected
   let body := fm_body content
   ((rustLines body).headD []) == expectedLine)

/-! Provider profile, from `src/deploy/provider.rs`.  The crate's test
suite (`src/deploy/tests.rs`) and the spec (section 4.3) both use a
fourth `OpenCode` variant and an `agent_extension` method that
`src/deploy/mod.rs` calls, yet both are absent from the copy of
`src/deploy/provider.rs` under `src/`; that copy therefore cannot be the
complete source.  The missing pieces are modelled from the spec and
marked as such below. -/

/-- Modelled from the spec: the closed provider set of section 4.3,
including the `OpenCode` variant that is missing from
`src/deploy/provider.rs` but exercised throughout the crate's tests. -/
inductive Provider where
  | Claude : Provider
  | Gemini : Provider
  | Codex : Provider
  | OpenCode : Provider
deriving DecidableEq

/-- Embedding of `to_kebab_case`, first pass: lowercase uppercase runs,
inserting a hyphen at a lower/digit-to-upper transition, and turn spaces
and underscores into hyphens. -/
def kebabAux : Str → Bool → Str
  | [], _ => []
  | ch :: rest, prev =>
      if isUpperAZ ch then
        (if prev then ['-', toLowerAZ ch] else [toLowerAZ ch]) ++ kebabAux rest false
      else if ch = ' ' || ch = '_' then '-' :: kebabAux rest false
      else ch :: kebabAux rest (isLowerAZ ch || isDigit09 ch)

/-- Embedding of `to_kebab_case`, second pass: collapse consecutive
hyphens. -/
def collapseHyphens : Str → Bool → Str
  | [], _ => []
  | ch :: rest, prevHyph =>
      if ch = '-' then
        (if prevHyph then [] else ['-']) ++ collapseHyphens rest true
      else ch :: collapseHyphens rest false

/-- Embedding of `to_kebab_case` in `src/deploy/provider.rs`. -/
def to_kebab_case (name : Str) : Str :=
  collapseHyphens (kebabAux name false) false

/-- Embedding of `Provider::from_path`; the `.opencode` arm is modelled
from the spec (section 4.3) and the test `from_path_opencode`. -/
def Provider.from_path (path : Str) : Provider :=
  if hasSub (S ".gemini") path then .Gemini
  else if hasSub (S ".codex") path then .Codex
  else if hasSub (S ".opencode") path then .OpenCode
  else .Claude

/-- Embedding of `Provider::format_name`; the spec (section 4.3) has
Gemini and OpenCode kebab-case the identifier and the others keep it. -/
def Provider.format_name (p : Provider) (name : Str) : Str :=
  match p with
  | .Gemini | .OpenCode => to_kebab_case name
  | .Claude | .Codex => name

/-- Embedding of `Provider::map_tool`; the spec (section 4.3) has the
vocabulary map apply to Gemini only, with identity elsewhere. -/
def Provider.map_tool (p : Provider) (tool : Str) : Str :=
  match p with
  | .Claude | .Codex | .OpenCode => tool
  | .Gemini =>
      let t := tool.map toLowerAZ
      if t == S "read" then S "read_file"
      else if t == S "write" then S "write_file"
      else if t == S "edit" || t == S "replace" then S "replace"
      else if t == S "grep" then S "grep_search"
      else if t == S "glob" then S "glob"
      else if t == S "bash" || t == S "shell" || t == S "run" then S "run_shell_command"
      else if t == S "websearch" then S "google_web_search"
      else if t == S "webfetch" then S "web_fetch"
      else t

/-- Embedding of `Provider::map_tools`. -/
def Provider.map_tools (p : Provider) (tools : Str) : Str :=
  joinCommaSpace ((((splitComma tools).map trimWS).filter (fun s => !s.isEmpty)).map p.map_tool)

/-- Embedding of `Provider::as_str`. -/
def Provider.as_str (p : Provider) : Str :=
  match p with
  | .Claude => S "claude"
  | .Gemini => S "gemini"
  | .Codex => S "codex"
  | .OpenCode => S "opencode"

/-- Modelled from the spec: `Provider::agent_extension` is called from
`src/deploy/mod.rs` but missing from `src/deploy/provider.rs`; section 6
makes the extension provider-determined, the Codex renderer's
`config_file = "agents/<name>.toml"` lines fix `toml` for Codex, and the
markdown artifact shape of the other providers fixes `md`. -/
def Provider.agent_extension (p : Provider) : Str :=
  match p with
  | .Codex => S "toml"
  | _ => S "md"

/-! Layered configuration resolver, from `src/sidecar/mod.rs`. -/

/-- Embedding of `ModelTiers`. -/
structure ModelTiers where
  fast : Str
  strong : Str
deriving DecidableEq

/-- Embedding of `ModelTiers::default`. -/
def ModelTiers.default : ModelTiers := ⟨S "sonnet", S "opus"⟩

/-- Embedding of `SidecarConfig`: the merged YAML value tree. -/
structure SidecarConfig where
  raw : YVal

/-- Embedding of `navigate` in `src/sidecar/mod.rs`. -/
def navigate (v : YVal) : List Str → Option YVal
  | [] => some v
  | k :: rest =>
      match v with
      | .map m =>
          match lookupMap m k with
          | some child => navigate child rest
          | none => none
      | _ => none

/-- Embedding of `yaml_string` in `src/sidecar/mod.rs`. -/
def yaml_string (v : YVal) (k : Str) : Option Str :=
  match v with
  | .map m =>
      match lookupMap m k with
      | some (.str s) => some s
      | _ => none
  | _ => none

/-- Embedding of `normalize_value` in `src/sidecar/mod.rs`. -/
def normalize_value (v : YVal) : Option Str := scalarToStr v

/-- Embedding of `SidecarConfig::global_tiers`. -/
def SidecarConfig.global_tiers (c : SidecarConfig) : ModelTiers :=
  match (navigate c.raw [S "shared", S "models"]).orElse (fun _ => navigate c.raw [S "models"]) with
  | some sec =>
      { fast := (yaml_string sec (S "fast")).getD (S "sonnet")
        strong := (yaml_string sec (S "strong")).getD (S "opus") }
  | none => ModelTiers.default

/-- Boolean test for the mapping variant, as `Value::is_mapping`. -/
def YVal.isMapping : YVal → Bool
  | .map _ => true
  | _ => false

/-- Boolean test for the sequence variant, as `Value::is_sequence`. -/
def YVal.isSeq : YVal → Bool
  | .seq _ => true
  | _ => false

/-- Embedding of `SidecarConfig::provider_tiers`. -/
def SidecarConfig.provider_tiers (c : SidecarConfig) (provider : Str) : ModelTiers :=
  let global := c.global_tiers
  let sec := ((navigate c.raw [S "providers", provider, S "models"]).filter YVal.isMapping).orElse
    (fun _ => (navigate c.raw [S "providers", provider]).orElse
      (fun _ => navigate c.raw [provider]))
  match sec with
  | some s =>
      { fast := (yaml_string s (S "fast")).getD global.fast
        strong := (yaml_string s (S "strong")).getD global.strong }
  | none => global

/-- Lookup chain for the model whitelist inside
`SidecarConfig::is_model_whitelisted`: `providers.<p>.whitelist`, then
`providers.<p>.models` when it is a sequence, then flat `<p>.models`. -/
def whitelistLookup (c : SidecarConfig) (provider : Str) : Option YVal :=
  (navigate c.raw [S "providers", provider, S "whitelist"]).orElse
    (fun _ => ((navigate c.raw [S "providers", provider, S "models"]).filter YVal.isSeq).orElse
      (fun _ => navigate c.raw [provider, S "models"]))

/-- Embedding of `SidecarConfig::is_model_whitelisted`. -/
def SidecarConfig.is_model_whitelisted (c : SidecarConfig) (provider model : Str) : Bool :=
  match whitelistLookup c provider with
  | some (.seq l) =>
      if l.isEmpty then false
      else l.any (fun v =>
        match v with
        | .str s => s == model
        | _ => false)
  | _ => true

/-- Embedding of `SidecarConfig::agent_value`. -/
def SidecarConfig.agent_value (c : SidecarConfig) (agent key : Str) : Option Str :=
  match (navigate c.raw [S "agents", agent, key]).orElse (fun _ => navigate c.raw [agent, key]) with
  | some v => normalize_value v
  | none => none

/-- Embedding of `SidecarConfig::provider_reasoning_effort`. -/
def SidecarConfig.provider_reasoning_effort (c : SidecarConfig) (provider tier : Str) : Option Str :=
  match (navigate c.raw [S "providers", provider, S "reasoning_effort", tier]).orElse
      (fun _ => navigate c.raw [provider, S "reasoning_effort", tier]) with
  | some v => normalize_value v
  | none => none

/-- Embedding of `resolve_model` in `src/sidecar/mod.rs`. -/
def resolve_model (model : Str) (global provider : ModelTiers) : Str :=
  if model == S "fast" || model == global.fast then provider.fast
  else if model == S "strong" || model == global.strong then provider.strong
  else model

/-! Filesystem model: an association list from paths to contents plus a
set of symlink paths. -/

/-- Filesystem state threaded through the deploy engine. -/
structure FS where
  files : List (Str × Str)
  symlinks : List Str
deriving DecidableEq

/-- Content of the file at a path, when present. -/
def FS.read (fs : FS) (p : Str) : Option Str :=
  (fs.files.find? (fun q => q.1 == p)).map (·.2)

/-- Existence test for a path, as `Path::exists`. -/
def FS.pathExists (fs : FS) (p : Str) : Bool :=
  (fs.read p).isSome

/-- Symlink test for a path, as `Path::is_symlink`. -/
def FS.isSymlink (fs : FS) (p : Str) : Bool :=
  fs.symlinks.contains p

/-- Write of a file, replacing any previous content at the path. -/
def FS.write (fs : FS) (p : Str) (content : Str) : FS :=
  { fs with files := (p, content) :: fs.files.filter (fun q => !(q.1 == p)) }

/-- Removal of a file. -/
def FS.remove (fs : FS) (p : Str) : FS :=
  { fs with files := fs.files.filter (fun q => !(q.1 == p)) }

/-! Deploy engine, from `src/deploy/mod.rs`. -/

/-- Embedding of `AgentMeta`. -/
structure AgentMeta where
  name : Str
  display_name : Str
  model : Str
  description : Str
  tools : Option Str
  source_file : Str
  source : Str
  reasoning_effort : Option Str
deriving DecidableEq

/-- Embedding of `AgentOutput`. -/
structure AgentOutput where
  primary : Str
  prompt_file : Option (Str × Str)
deriving DecidableEq

/-- Embedding of `DeployResult`. -/
inductive DeployResult where
  | Deployed : DeployResult
  | SkippedTemplate : DeployResult
  | SkippedUserOwned : DeployResult
  | SkippedNoName : DeployResult
deriving DecidableEq

/-- Embedding of `toml_escape`: doubling of backslashes then of double
quotes, written as a single character pass (the first replacement
introduces only backslashes, which the second replacement leaves
alone). -/
def toml_escape (value : Str) : Str :=
  match value with
  | [] => []
  | c :: rest =>
      (if c = '\\' then ['\\', '\\'] else if c = '"' then ['\\', '"'] else [c]) ++ toml_escape rest

/-- Embedding of `format_agent_output`; the `OpenCode` arm is modelled
from the spec (section 4.6: every provider but Codex renders a metadata
block followed by the body, Gemini alone adding a fixed marker and the
tool vocabulary map). -/
def format_agent_output (meta : AgentMeta) (body : Str) (provider : Provider)
    (model_allowed : Bool) : AgentOutput :=
  match provider with
  | .Codex =>
      let promptFilename := meta.name ++ S ".prompt.md"
      let instructionsPath := S "agents/" ++ promptFilename
      let out :=
        S "# source: " ++ meta.source ++ ['\n'] ++
        S "description = \"" ++ toml_escape meta.description ++ '"' :: ['\n'] ++
        (if model_allowed then S "model = \"" ++ toml_escape meta.model ++ '"' :: ['\n'] else []) ++
        (match meta.reasoning_effort with
         | some eff => S "model_reasoning_effort = \"" ++ eff ++ '"' :: ['\n']
         | none => []) ++
        S "model_instructions_file = \"" ++ toml_escape instructionsPath ++ '"' :: ['\n']
      let promptBody := body ++ (if body.getLast? = some '\n' then [] else ['\n'])
      { primary := out, prompt_file := some (promptFilename, promptBody) }
  | .Gemini =>
      let out :=
        S "---" ++ ['\n'] ++
        S "name: " ++ meta.display_name ++ ['\n'] ++
        S "description: " ++ meta.description ++ ['\n'] ++
        S "kind: local" ++ ['\n'] ++
        (if model_allowed then S "model: " ++ meta.model ++ ['\n'] else []) ++
        (match meta.tools with
         | some tools =>
             let mapped := Provider.Gemini.map_tools tools
             S "tools:" ++ ['\n'] ++
               (splitCS mapped).foldr (fun t acc => S "  - " ++ t ++ ['\n'] ++ acc) []
         | none => []) ++
        S "source: " ++ meta.source ++ ['\n'] ++
        S "---" ++ ['\n'] ++
        body ++ (if body.getLast? = some '\n' then [] else ['\n'])
      { primary := out, prompt_file := none }
  | .Claude | .OpenCode =>
      let out :=
        S "---" ++ ['\n'] ++
        S "name: " ++ meta.display_name ++ ['\n'] ++
        S "description: " ++ meta.description ++ ['\n'] ++
        (if model_allowed then S "model: " ++ meta.model ++ ['\n'] else []) ++
        (match meta.tools with
         | some tools => S "tools: " ++ tools ++ ['\n']
         | none => []) ++
        S "source: " ++ meta.source ++ ['\n'] ++
        S "---" ++ ['\n'] ++
        body ++ (if body.getLast? = some '\n' then [] else ['\n'])
      { primary := out, prompt_file := none }

/-- Embedding of `extract_agent_meta`. -/
def extract_agent_meta (content filename : Str) (provider : Provider)
    (config : SidecarConfig) (pre : Str) : Option AgentMeta :=
  if (S "_Template").isPrefixOf filename || (S "Template").isPrefixOf filename then none
  else
    match (fm_value content (S "name")).orElse (fun _ => fm_value content (S "claude.name")) with
    | none => none
    | some name =>
        if name.isEmpty then none
        else
          let model_tier := ((config.agent_value name (S "model")).orElse
            (fun _ => fm_value content (S "claude.model"))).getD (S "sonnet")
          let description := (((fm_value content (S "description")).orElse
            (fun _ => fm_value content (S "claude.description"))).orElse
            (fun _ => config.agent_value name (S "description"))).getD (S "Specialist agent")
          let tools := ((config.agent_value name (S "tools")).orElse
            (fun _ => fm_list content (S "claude.tools"))).orElse
            (fun _ => fm_value content (S "claude.tools"))
          let global := config.global_tiers
          let ptiers := config.provider_tiers provider.as_str
          let model := resolve_model model_tier global ptiers
          let reasoning_effort := (config.agent_value name (S "reasoning_effort")).orElse
            (fun _ => config.provider_reasoning_effort provider.as_str model_tier)
          let display_name := provider.format_name name
          let source := if pre.isEmpty then filename else pre ++ '/' :: filename
          some
            { name := name
              display_name := display_name
              model := model
              description := description
              tools := tools
              source_file := filename
              source := source
              reasoning_effort := reasoning_effort }

/-- Embedding of `deploy_agent`; the filesystem is threaded explicitly
and returned unchanged on every non-write path. -/
def deploy_agent (content filename dstDir : Str) (provider : Provider)
    (config : SidecarConfig) (dryRun : Bool) (pre : Str) (fs : FS) :
    Except Str DeployResult × FS :=
  if (S "_Template").isPrefixOf filename || (S "Template").isPrefixOf filename then
    (.ok .SkippedTemplate, fs)
  else
    match extract_agent_meta content filename provider config pre with
    | none => (.ok .SkippedNoName, fs)
    | some meta =>
        match validate_agent_name meta.name with
        | .error e => (.error e, fs)
        | .ok _ =>
            let outPath := dstDir ++ '/' :: meta.name ++ '.' :: provider.agent_extension
            if fs.isSymlink outPath then
              (.error (S "destination is a symlink: " ++ outPath), fs)
            else
              let proceed : Bool :=
                match fs.read outPath with
                | some existing => is_synced_from existing filename
                | none => true
              if !proceed then (.ok .SkippedUserOwned, fs)
              else
                let model_allowed := config.is_model_whitelisted provider.as_str meta.model
                let body := fm_body content
                let output := format_agent_output meta body provider model_allowed
                if dryRun then (.ok .Deployed, fs)
                else
                  let fs1 := fs.write outPath output.primary
                  let fs2 :=
                    match output.prompt_file with
                    | some pf => fs1.write (dstDir ++ '/' :: pf.1) pf.2
                    | none => fs1
                  (.ok .Deployed, fs2)

/-! Manifest store, from `src/manifest/mod.rs`, and the orphan
reconciler `clean_orphaned_agents` from `src/deploy/mod.rs`. -/

/-- Key line of the manifest serialization, of the shape `name:`. -/
def manifestKeyOf (l : Str) : Option Str :=
  if l.getLast? = some ':' then
    let k := l.dropLast
    if !k.isEmpty && !k.contains ':' && !((S "- ").isPrefixOf k) then some k else none
  else none

/-- Accumulating loop of the manifest parser: `k` is the key of the open
entry and `items` its so-far-collected values, in reverse. -/
def manifestLoop : List Str → Str → List Str → Option (List (Str × List Str))
  | [], k, items => if items.isEmpty then none else some [(k, items.reverse)]
  | l :: rest, k, items =>
      if (S "- ").isPrefixOf l then manifestLoop rest k (l.drop 2 :: items)
      else
        match manifestKeyOf l with
        | some k2 =>
            if items.isEmpty then none
            else (manifestLoop rest k2 []).map (fun tail => (k, items.reverse) :: tail)
        | none => none

/-- Modelled from the spec: the manifest file is read back through the
external `serde_yaml` library as a mapping from module names to lists of
strings; this parser covers exactly the `name:` / `- item` block shape
that the manifest writer emits. -/
def parseManifest (s : Str) : Option (List (Str × List Str)) :=
  match rustLines s with
  | [] => some []
  | l :: rest =>
      match manifestKeyOf l with
      | some k => manifestLoop rest k []
      | none => none

/-- Embedding of `manifest::read`: a missing or unparsable manifest file
degrades to the empty list. -/
def manifest_read (fs : FS) (dstDir module : Str) : List Str :=
  match fs.read (dstDir ++ '/' :: S ".manifest") with
  | none => []
  | some content =>
      match parseManifest content with
      | none => []
      | some m => ((m.find? (fun p => p.1 == module)).map (·.2)).getD []

/-- Removal step of `clean_orphaned_agents` for one orphan name: delete
the artifact file and, for Codex, its companion prompt file when
present. -/
def cleanOrphanStep (fs : FS) (dstDir ext h : Str) (isCodex : Bool) : FS :=
  if isCodex then
    (if (fs.remove (dstDir ++ '/' :: h ++ '.' :: ext)).pathExists
        (dstDir ++ '/' :: h ++ S ".prompt.md") then
      (fs.remove (dstDir ++ '/' :: h ++ '.' :: ext)).remove (dstDir ++ '/' :: h ++ S ".prompt.md")
    else fs.remove (dstDir ++ '/' :: h ++ '.' :: ext))
  else fs.remove (dstDir ++ '/' :: h ++ '.' :: ext)

/-- Loop body of `clean_orphaned_agents` over the previous manifest
entry. -/
def cleanOrphanLoop (dstDir : Str) (ext : Str) (isCodex : Bool)
    (current : List Str) (dryRun : Bool) : List Str → FS → List Str × FS
  | [], fs => ([], fs)
  | name :: rest, fs =>
      if current.contains name then cleanOrphanLoop dstDir ext isCodex current dryRun rest fs
      else if !fs.pathExists (dstDir ++ '/' :: name ++ '.' :: ext) then
        cleanOrphanLoop dstDir ext isCodex current dryRun rest fs
      else
        (name :: (cleanOrphanLoop dstDir ext isCodex current dryRun rest
            (if dryRun then fs else cleanOrphanStep fs dstDir ext name isCodex)).1,
          (cleanOrphanLoop dstDir ext isCodex current dryRun rest
            (if dryRun then fs else cleanOrphanStep fs dstDir ext name isCodex)).2)

/-- Embedding of `clean_orphaned_agents` in `src/deploy/mod.rs`: reads
the previous manifest entry and removes every still-existing artifact
not in the current set (no provenance check appears in the source). -/
def clean_orphaned_agents (dstDir module : Str) (current : List Str)
    (provider : Provider) (dryRun : Bool) (fs : FS) :
    Except Str (List Str) × FS :=
  if module.isEmpty then (.ok [], fs)
  else
    let previous := manifest_read fs dstDir module
    let out := cleanOrphanLoop dstDir provider.agent_extension (provider = .Codex)
      current dryRun previous fs
    (.ok out.1, out.2)

/-! Codex managed configuration block, from `src/deploy/mod.rs`. -/

/-- Embedding of `CODEX_BLOCK_BEGIN`. -/
def CODEX_BLOCK_BEGIN : Str := S "# BEGIN forge-council agents"

/-- Embedding of `CODEX_BLOCK_END`. -/
def CODEX_BLOCK_END : Str := S "# END forge-council agents"

/-- Embedding of `CodexConfigEntry`. -/
structure CodexConfigEntry where
  name : Str
  description : Str

/-- Lines of the rendered managed block: the `writeln!` sequence of
`format_codex_config_block`, written as an explicit line list. -/
def codexBlockLines (entries : List CodexConfigEntry) (pre : Str) : List Str :=
  [CODEX_BLOCK_BEGIN, S "# Generated by install-agents (" ++ pre ++ [')']] ++
    (entries.map (fun e =>
      [([] : Str),
       S "[agents." ++ e.name ++ [']'],
       S "description = \"" ++ toml_escape e.description ++ ['"'],
       S "config_file = \"agents/" ++ toml_escape e.name ++ S ".toml\""])).flatten ++
    [CODEX_BLOCK_END]

/-- Embedding of `format_codex_config_block`. -/
def format_codex_config_block (entries : List CodexConfigEntry) (pre : Str) : Str :=
  joinNL (codexBlockLines entries pre)

/-- Trailing-blank-line trim of `strip_managed_block`: the Rust loop pops
one character while the content ends with two newlines, which caps a
trailing run of two or more newlines at exactly one. -/
def trimTrailNL (s : Str) : Str :=
  if ['\n', '\n'].isPrefixOf s.reverse then
    ('\n' :: s.reverse.dropWhile (fun c => c = '\n')).reverse
  else s

/-- Line filter of `strip_managed_block`: drops delimiter lines and every
line between a begin delimiter and the next end delimiter. -/
def filterBlock (b e : Str) (skip : Bool) : List Str → List Str
  | [] => []
  | l :: rest =>
      if l == b then filterBlock b e true rest
      else if l == e then filterBlock b e false rest
      else if skip then filterBlock b e skip rest
      else l :: filterBlock b e skip rest

/-- Embedding of `strip_managed_block`. -/
def strip_managed_block (content b e : Str) : Str :=
  trimTrailNL (joinNL (filterBlock b e false (rustLines content)))

/-- Pure content transformation of `write_codex_config_block`: strip any
prior managed block, then append the freshly rendered block after the
surviving content. -/
def renderCodexConfig (existing : Str) (entries : List CodexConfigEntry) (pre : Str) : Str :=
  if (strip_managed_block existing CODEX_BLOCK_BEGIN CODEX_BLOCK_END).isEmpty then
    format_codex_config_block entries pre
  else
    strip_managed_block existing CODEX_BLOCK_BEGIN CODEX_BLOCK_END ++
      (if (strip_managed_block existing CODEX_BLOCK_BEGIN CODEX_BLOCK_END).getLast? = some '\n'
       then [] else ['\n']) ++
      '\n' :: format_codex_config_block entries pre

/-- Embedding of `write_codex_config_block`: reads the existing file
(empty when absent) and writes back the re-rendered content. -/
def write_codex_config_block (configPath : Str) (entries : List CodexConfigEntry)
    (pre : Str) (dryRun : Bool) (fs : FS) : Except Str Unit × FS :=
  let existing := (fs.read configPath).getD []
  let rendered := renderCodexConfig existing entries pre
  if dryRun then (.ok (), fs)
  else (.ok (), fs.write configPath rendered)

/-- Decidable equality for `Except`, used to evaluate results on
concrete inputs. -/
instance {ε α : Type} [DecidableEq ε] [DecidableEq α] : DecidableEq (Except ε α)
  | .ok a, .ok b =>
      if h : a = b then .isTrue (by rw [h]) else .isFalse (fun hc => h (Except.ok.inj hc))
  | .ok _, .error _ => .isFalse (fun hc => Except.noConfusion hc)
  | .error _, .ok _ => .isFalse (fun hc => Except.noConfusion hc)
  | .error a, .error b =>
      if h : a = b then .isTrue (by rw [h]) else .isFalse (fun hc => h (Except.error.inj hc))


/-! Theorems.  Each claim of the specification is settled below; helper
lemmas come first. -/

/-- Validation succeeds exactly when the anchored pattern matches. -/
theorem validateOk_eq_matches (s : Str) : validateOk s = agent_name_matches s := by
  cases s with
  | nil => rfl
  | cons c rest =>
      unfold validateOk validate_agent_name
      simp only [List.isEmpty_cons, if_false, Bool.false_eq_true]
      by_cases h : agent_name_matches (c :: rest) = true
      · simp [h]
      · simp [Bool.not_eq_true] at h
        simp [h]

/-- A character that is neither an uppercase letter nor alphanumeric
forces the identifier pattern to fail wherever it occurs. -/
theorem matches_false_of_bad_char (s : Str) (c : Char) (hc : c ∈ s)
    (h1 : isUpperAZ c = false) (h2 : isAlnumAZ09 c = false) :
    agent_name_matches s = false := by
  cases s with
  | nil => rfl
  | cons a rest =>
      unfold agent_name_matches
      rcases List.mem_cons.mp hc with rfl | hmem
      · simp [h1]
      · have hall : rest.all isAlnumAZ09 = false := by
          by_contra hne
          have := List.all_eq_true.mp (eq_true_of_ne_false hne) c hmem
          rw [h2] at this
          exact Bool.false_ne_true this
        simp [hall]

/-- Template-prefixed filenames make metadata extraction fail. -/
theorem extract_none_of_template (content filename : Str) (provider : Provider)
    (config : SidecarConfig) (pre : Str)
    (h : ((S "_Template").isPrefixOf filename || (S "Template").isPrefixOf filename) = true) :
    extract_agent_meta content filename provider config pre = none := by
  unfold extract_agent_meta
  simp [h]

/-- Successful extraction means the filename is not template-prefixed. -/
theorem template_false_of_extract (content filename : Str) (provider : Provider)
    (config : SidecarConfig) (pre : Str) (meta : AgentMeta)
    (h : extract_agent_meta content filename provider config pre = some meta) :
    ((S "_Template").isPrefixOf filename || (S "Template").isPrefixOf filename) = false := by
  by_contra hne
  have htpl := eq_true_of_ne_false hne
  rw [extract_none_of_template content filename provider config pre htpl] at h
  exact Option.noConfusion h

/-- C5: the provider profile is the closed variant set Claude, Gemini,
Codex, OpenCode, and detecting a provider from a destination path is a
substring match against `.gemini`, `.codex`, `.opencode` in that order,
defaulting to Claude; in particular a path containing `.opencode` and no
earlier marker maps to the OpenCode variant. -/
theorem C5_provider_profile :
    (∀ p : Provider, p = .Claude ∨ p = .Gemini ∨ p = .Codex ∨ p = .OpenCode) ∧
    (∀ path : Str, hasSub (S ".gemini") path = true → Provider.from_path path = .Gemini) ∧
    (∀ path : Str, hasSub (S ".gemini") path = false → hasSub (S ".codex") path = true →
      Provider.from_path path = .Codex) ∧
    (∀ path : Str, hasSub (S ".gemini") path = false → hasSub (S ".codex") path = false →
      hasSub (S ".opencode") path = true → Provider.from_path path = .OpenCode) ∧
    (∀ path : Str, hasSub (S ".gemini") path = false → hasSub (S ".codex") path = false →
      hasSub (S ".opencode") path = false → Provider.from_path path = .Claude) ∧
    Provider.from_path (S "/home/user/.opencode/agents") = .OpenCode := by
  refine ⟨fun p => ?_, fun path h => ?_, fun path h1 h2 => ?_,
    fun path h1 h2 h3 => ?_, fun path h1 h2 h3 => ?_, by decide⟩
  · cases p
    · exact Or.inl rfl
    · exact Or.inr (Or.inl rfl)
    · exact Or.inr (Or.inr (Or.inl rfl))
    · exact Or.inr (Or.inr (Or.inr rfl))
  · simp [Provider.from_path, h]
  · simp [Provider.from_path, h1, h2]
  · simp [Provider.from_path, h1, h2, h3]
  · simp [Provider.from_path, h1, h2, h3]

/-- Witness for C5 at concrete destination paths. -/
theorem C5_provider_profile_witness :
    Provider.from_path (S "/home/user/.gemini/agents") = .Gemini ∧
    Provider.from_path (S "/home/user/.codex/agents") = .Codex ∧
    Provider.from_path (S "/home/user/.opencode/agents") = .OpenCode ∧
    Provider.from_path (S "/home/user/.claude/agents") = .Claude := by
  refine ⟨C5_provider_profile.2.1 _ (by decide),
    C5_provider_profile.2.2.1 _ (by decide) (by decide),
    C5_provider_profile.2.2.2.1 _ (by decide) (by decide) (by decide),
    C5_provider_profile.2.2.2.2.1 _ (by decide) (by decide) (by decide)⟩

/-- C7: model whitelisting is fail-closed on empty and fail-open on
absent: a non-empty whitelist sequence decides by membership, an empty
sequence rejects every model, and an absent whitelist allows every
model. -/
theorem C7_whitelist (cfg : SidecarConfig) (provider model : Str) :
    (∀ l : List YVal, whitelistLookup cfg provider = some (.seq l) → l ≠ [] →
      (cfg.is_model_whitelisted provider model = true ↔ YVal.str model ∈ l)) ∧
    (whitelistLookup cfg provider = some (.seq []) →
      cfg.is_model_whitelisted provider model = false) ∧
    (whitelistLookup cfg provider = none →
      cfg.is_model_whitelisted provider model = true) := by
  unfold SidecarConfig.is_model_whitelisted
  refine ⟨fun l hl hne => ?_, fun hl => ?_, fun hl => ?_⟩
  · rw [hl]
    have hempty : l.isEmpty = false := by
      cases l with
      | nil => exact absurd rfl hne
      | cons x xs => rfl
    simp only [hempty, Bool.false_eq_true, if_false, List.any_eq_true]
    constructor
    · rintro ⟨v, hv, hm⟩
      cases v with
      | str s =>
          have hs : s = model := by simpa using hm
          rw [hs] at hv
          exact hv
      | null => exact absurd hm Bool.false_ne_true
      | bool b => exact absurd hm Bool.false_ne_true
      | num n => exact absurd hm Bool.false_ne_true
      | seq l2 => exact absurd hm Bool.false_ne_true
      | map m2 => exact absurd hm Bool.false_ne_true
    · intro hmem
      exact ⟨.str model, hmem, by simp⟩
  · rw [hl]
    rfl
  · rw [hl]

/-- Concrete configuration for the C7 witness: a one-model whitelist for
claude, an empty whitelist for gemini, and nothing for codex. -/
def cfgWhitelist : SidecarConfig :=
  ⟨.map [(S "providers", .map
    [(S "claude", .map [(S "whitelist", .seq [.str (S "opus")])]),
     (S "gemini", .map [(S "whitelist", .seq [])])])]⟩

/-- Witness for C7: membership decides under the non-empty whitelist, the
empty whitelist rejects a model accepted without any whitelist, and the
absent whitelist allows everything. -/
theorem C7_whitelist_witness :
    cfgWhitelist.is_model_whitelisted (S "claude") (S "opus") = true ∧
    cfgWhitelist.is_model_whitelisted (S "claude") (S "sonnet") = false ∧
    cfgWhitelist.is_model_whitelisted (S "gemini") (S "sonnet") = false ∧
    cfgWhitelist.is_model_whitelisted (S "codex") (S "sonnet") = true := by
  refine ⟨?_, ?_, ?_, ?_⟩
  · exact ((C7_whitelist cfgWhitelist (S "claude") (S "opus")).1 _ rfl
      (by simp)).mpr (by simp)
  · have h := (C7_whitelist cfgWhitelist (S "claude") (S "sonnet")).1 _ rfl
      (by simp)
    by_contra hne
    have := h.mp (eq_true_of_ne_false hne)
    simp at this
    exact absurd this (by decide)
  · exact (C7_whitelist cfgWhitelist (S "gemini") (S "sonnet")).2.1 rfl
  · exact (C7_whitelist cfgWhitelist (S "codex") (S "sonnet")).2.2 rfl

/-- C8 counterexample: with a degenerate global pair whose fast alias is
the literal string `strong`, resolving `strong` lands on the provider's
fast model, not its strong model as the claim requires for all tier
pairs. -/
theorem C8_counterexample :
    resolve_model (S "strong") ⟨S "strong", S "opus"⟩ ⟨S "pfast", S "pstrong"⟩ ≠
      (⟨S "pfast", S "pstrong"⟩ : ModelTiers).strong := by decide

/-- C8 as amended: the fast equations hold for all tier pairs; the strong
equations hold whenever the global aliases do not collide with the
literal tier names or each other; pass-through holds for any other
string. -/
theorem C8_tier_resolution (G P : ModelTiers) :
    resolve_model (S "fast") G P = P.fast ∧
    resolve_model G.fast G P = P.fast ∧
    (G.fast ≠ S "strong" → resolve_model (S "strong") G P = P.strong) ∧
    (G.strong ≠ S "fast" → G.strong ≠ G.fast → resolve_model G.strong G P = P.strong) ∧
    (∀ x : Str, x ≠ S "fast" → x ≠ S "strong" → x ≠ G.fast → x ≠ G.strong →
      resolve_model x G P = x) := by
  refine ⟨?_, ?_, fun h => ?_, fun h1 h2 => ?_, fun x h1 h2 h3 h4 => ?_⟩
  · simp [resolve_model]
  · simp [resolve_model]
  · have hne0 : ¬(S "strong" == S "fast") = true := by decide
    have hne : ¬(S "strong" == G.fast) = true := by
      simp only [beq_iff_eq]
      exact fun hx => h hx.symm
    simp [resolve_model, hne0, hne]
  · have hne1 : ¬(G.strong == S "fast") = true := by simp [beq_iff_eq, h1]
    have hne2 : ¬(G.strong == G.fast) = true := by simp [beq_iff_eq, h2]
    simp [resolve_model, hne1, hne2]
  · simp [resolve_model, beq_iff_eq, h1, h2, h3, h4]

/-- Witness for C8 at the default global tiers and a distinct provider
pair. -/
theorem C8_tier_resolution_witness :
    resolve_model (S "fast") ⟨S "sonnet", S "opus"⟩ ⟨S "gf", S "gs"⟩ = S "gf" ∧
    resolve_model (S "sonnet") ⟨S "sonnet", S "opus"⟩ ⟨S "gf", S "gs"⟩ = S "gf" ∧
    resolve_model (S "strong") ⟨S "sonnet", S "opus"⟩ ⟨S "gf", S "gs"⟩ = S "gs" ∧
    resolve_model (S "opus") ⟨S "sonnet", S "opus"⟩ ⟨S "gf", S "gs"⟩ = S "gs" ∧
    resolve_model (S "haiku") ⟨S "sonnet", S "opus"⟩ ⟨S "gf", S "gs"⟩ = S "haiku" := by
  have h := C8_tier_resolution ⟨S "sonnet", S "opus"⟩ ⟨S "gf", S "gs"⟩
  exact ⟨h.1, h.2.1, h.2.2.1 (by decide), h.2.2.2.1 (by decide) (by decide),
    h.2.2.2.2 _ (by decide) (by decide) (by decide) (by decide)⟩

/-- C10: either template filename prefix, the underscore form or the bare
form, makes deploy return SkippedTemplate with the filesystem untouched
and makes extraction yield none, for every provider and
configuration. -/
theorem C10_template_skip (content filename dstDir pre : Str) (provider : Provider)
    (config : SidecarConfig) (dryRun : Bool) (fs : FS)
    (h : (S "_Template").isPrefixOf filename = true ∨
         (S "Template").isPrefixOf filename = true) :
    deploy_agent content filename dstDir provider config dryRun pre fs =
      (.ok .SkippedTemplate, fs) ∧
    extract_agent_meta content filename provider config pre = none := by
  have hb : ((S "_Template").isPrefixOf filename || (S "Template").isPrefixOf filename) = true := by
    rcases h with h | h <;> simp [h]
  exact ⟨by unfold deploy_agent; simp [hb], extract_none_of_template _ _ _ _ _ hb⟩

/-- Witness for C10: the legitimately named agent file TemplateEngine.md
has a valid identifier yet is skipped as a template and never
extracted. -/
theorem C10_template_skip_witness :
    validateOk (S "TemplateEngine") = true ∧
    deploy_agent (S "---" ++ ['\n'] ++ S "name: TemplateEngine" ++ ['\n'] ++ S "---" ++ ['\n'])
        (S "TemplateEngine.md") (S "dst") .Claude ⟨YVal.null⟩ false [] ⟨[], []⟩ =
      (.ok .SkippedTemplate, ⟨[], []⟩) ∧
    deploy_agent (S "x") (S "_TemplateAgent.md") (S "dst") .Gemini ⟨YVal.null⟩ false [] ⟨[], []⟩ =
      (.ok .SkippedTemplate, ⟨[], []⟩) := by
  refine ⟨by decide, ?_, ?_⟩
  · exact (C10_template_skip _ _ _ _ .Claude _ false _ (Or.inr (by decide))).1
  · exact (C10_template_skip _ _ _ _ .Gemini _ false _ (Or.inl (by decide))).1

/-- C9: identifier validation accepts exactly the anchored pattern of an
uppercase letter followed by 2 to 50 alphanumerics: strings containing a
slash, a backslash or a double dot, strings starting with a lowercase
letter, and strings shorter than 3 or longer than 51 characters are all
rejected, the three sample names are accepted, and a deploy whose
extracted identifier fails validation returns that hard error with the
filesystem untouched. -/
theorem C9_identifier_validation :
    (∀ s : Str, '/' ∈ s → validateOk s = false) ∧
    (∀ s : Str, '\\' ∈ s → validateOk s = false) ∧
    (∀ a b : Str, validateOk (a ++ S ".." ++ b) = false) ∧
    (∀ (c : Char) (rest : Str), isLowerAZ c = true → validateOk (c :: rest) = false) ∧
    (∀ s : Str, s.length < 3 → validateOk s = false) ∧
    (∀ s : Str, 51 < s.length → validateOk s = false) ∧
    validateOk (S "SecurityArchitect") = true ∧
    validateOk (S "Dev") = true ∧
    validateOk (S "Model3Config") = true ∧
    (∀ (content filename dstDir pre : Str) (provider : Provider) (config : SidecarConfig)
      (dryRun : Bool) (fs : FS) (meta : AgentMeta) (e : Str),
      extract_agent_meta content filename provider config pre = some meta →
      validate_agent_name meta.name = .error e →
      deploy_agent content filename dstDir provider config dryRun pre fs = (.error e, fs)) := by
  refine ⟨fun s hc => ?_, fun s hc => ?_, fun a b => ?_, fun c rest hlow => ?_,
    fun s hlen => ?_, fun s hlen => ?_, by decide, by decide, by decide,
    fun content filename dstDir pre provider config dryRun fs meta e hex hval => ?_⟩
  · rw [validateOk_eq_matches]
    exact matches_false_of_bad_char s '/' hc (by decide) (by decide)
  · rw [validateOk_eq_matches]
    exact matches_false_of_bad_char s '\\' hc (by decide) (by decide)
  · rw [validateOk_eq_matches]
    refine matches_false_of_bad_char _ '.' ?_ (by decide) (by decide)
    exact List.mem_append.mpr (Or.inl (List.mem_append.mpr (Or.inr (by decide))))
  · rw [validateOk_eq_matches]
    unfold agent_name_matches
    have h1 : 'a' ≤ c ∧ c ≤ 'z' := by
      unfold isLowerAZ at hlow
      simpa using hlow
    have h2 : ¬(c ≤ 'Z') := fun hc => absurd (le_trans h1.1 hc) (by decide)
    have hup : isUpperAZ c = false := by
      unfold isUpperAZ
      simp [h2]
    simp [hup]
  · rw [validateOk_eq_matches]
    cases s with
    | nil => rfl
    | cons c rest =>
        unfold agent_name_matches
        have : ¬(2 ≤ rest.length) := by
          simp only [List.length_cons] at hlen
          omega
        simp [this]
  · rw [validateOk_eq_matches]
    cases s with
    | nil => rfl
    | cons c rest =>
        unfold agent_name_matches
        have : ¬(rest.length ≤ 50) := by
          simp only [List.length_cons] at hlen
          omega
        simp [this]
  · have htpl := template_false_of_extract content filename provider config pre meta hex
    unfold deploy_agent
    rw [htpl]
    simp only [Bool.false_eq_true, if_false, hex, hval]

/-- Concrete invalid-identifier document for the C9 witness. -/
def docBadName : Str :=
  S "---" ++ ['\n'] ++ S "name: evilname" ++ ['\n'] ++ S "---" ++ ['\n'] ++ S "Body." ++ ['\n']

/-- Witness for C9: concrete rejections, and a deploy that hard-errors on
a lowercase extracted identifier while leaving the filesystem empty. -/
theorem C9_identifier_validation_witness :
    validateOk (S "A/evil") = false ∧
    validateOk (S "A" ++ S ".." ++ S "evil") = false ∧
    validateOk ('d' :: S "eveloper") = false ∧
    validateOk (S "AB") = false ∧
    deploy_agent docBadName (S "Evil.md") (S "dst") .Claude ⟨YVal.null⟩ false [] ⟨[], []⟩ =
      (.error (S "agent name " ++ S "evilname" ++ S " is invalid"), ⟨[], []⟩) := by
  refine ⟨C9_identifier_validation.1 _ (by decide),
    (C9_identifier_validation.2.2.1) (S "A") (S "evil"),
    (C9_identifier_validation.2.2.2.1) 'd' (S "eveloper") (by decide),
    (C9_identifier_validation.2.2.2.2.1) _ (by decide), ?_⟩
  exact (C9_identifier_validation.2.2.2.2.2.2.2.2.2) _ _ _ _ .Claude _ false _
    { name := S "evilname"
      display_name := S "evilname"
      model := S "sonnet"
      description := S "Specialist agent"
      tools := none
      source_file := S "Evil.md"
      source := S "Evil.md"
      reasoning_effort := none } _ (by decide) (by decide)

/-- C4: when the destination artifact exists and its content fails the
provenance check for the source filename, deploy returns SkippedUserOwned
and the filesystem, in particular the existing artifact, is left
unchanged (stated for a source that extracts, validates and is not a
symlink, the preceding steps of the deploy state machine). -/
theorem C4_user_owned (content filename dstDir pre : Str) (provider : Provider)
    (config : SidecarConfig) (dryRun : Bool) (fs : FS) (meta : AgentMeta) (existing : Str)
    (hex : extract_agent_meta content filename provider config pre = some meta)
    (hval : validateOk meta.name = true)
    (hsym : fs.isSymlink (dstDir ++ '/' :: meta.name ++ '.' :: provider.agent_extension) = false)
    (hread : fs.read (dstDir ++ '/' :: meta.name ++ '.' :: provider.agent_extension) =
      some existing)
    (hprov : is_synced_from existing filename = false) :
    deploy_agent content filename dstDir provider config dryRun pre fs =
      (.ok .SkippedUserOwned, fs) := by
  have htpl := template_false_of_extract content filename provider config pre meta hex
  obtain ⟨u, hv⟩ : ∃ u, validate_agent_name meta.name = .ok u := by
    unfold validateOk at hval
    cases h : validate_agent_name meta.name with
    | ok u => exact ⟨u, rfl⟩
    | error e => rw [h] at hval; exact absurd hval (by simp)
  unfold deploy_agent
  rw [htpl]
  simp only [Bool.false_eq_true, if_false, hex, hv]
  rw [hsym]
  simp only [Bool.false_eq_true, if_false, hread, hprov]
  rfl

/-- Concrete source document shared by several witnesses. -/
def docDev : Str :=
  S "---" ++ ['\n'] ++ S "name: Developer" ++ ['\n'] ++ S "description: Senior dev" ++ ['\n'] ++
  S "---" ++ ['\n'] ++ S "You are a developer." ++ ['\n']

/-- Extracted record of `docDev` for the Claude provider under the empty
configuration. -/
def metaDev : AgentMeta :=
  { name := S "Developer"
    display_name := S "Developer"
    model := S "sonnet"
    description := S "Senior dev"
    tools := none
    source_file := S "Developer.md"
    source := S "Developer.md"
    reasoning_effort := none }

/-- Filesystem holding a user-owned destination artifact. -/
def fsUserOwned : FS := ⟨[(S "dst/Developer.md", S "User content." ++ ['\n'])], []⟩

/-- Witness for C4: a deploy onto a hand-written artifact without
provenance is skipped as user-owned and the filesystem is unchanged. -/
theorem C4_user_owned_witness :
    deploy_agent docDev (S "Developer.md") (S "dst") .Claude ⟨YVal.null⟩ false [] fsUserOwned =
      (.ok .SkippedUserOwned, fsUserOwned) :=
  C4_user_owned docDev (S "Developer.md") (S "dst") [] .Claude ⟨YVal.null⟩ false fsUserOwned
    metaDev (S "User content." ++ ['\n']) (by decide) (by decide) (by decide) (by decide)
    (by decide)

/-! Lemmas for the orphan reconciler. -/

/-- Finding a key is unaffected by filtering out a different key. -/
theorem find?_filter_ne (files : List (Str × Str)) (p q : Str) (hne : p ≠ q) :
    (files.filter (fun r => !(r.1 == q))).find? (fun r => r.1 == p) =
      files.find? (fun r => r.1 == p) := by
  induction files with
  | nil => rfl
  | cons a rest ih =>
      rw [List.filter_cons]
      by_cases hq : a.1 = q
      · rw [if_neg (by simp [hq])]
        rw [List.find?_cons]
        have hp : (a.1 == p) = false := by
          simp only [beq_eq_false_iff_ne, ne_eq, hq]
          exact fun hx => hne hx.symm
        rw [hp]
        simpa using ih
      · rw [if_pos (by simp [hq])]
        rw [List.find?_cons, List.find?_cons]
        cases hab : (a.1 == p) with
        | true => simp
        | false => simpa using ih

/-- Reading a path is unaffected by removing a different path. -/
theorem FS.read_remove_ne (fs : FS) (p q : Str) (hne : p ≠ q) :
    (fs.remove q).read p = fs.read p := by
  unfold FS.read FS.remove
  simp only
  rw [find?_filter_ne fs.files p q hne]

/-- Existence of a path is unaffected by removing a different path. -/
theorem FS.pathExists_remove_ne (fs : FS) (p q : Str) (hne : p ≠ q) :
    (fs.remove q).pathExists p = fs.pathExists p := by
  unfold FS.pathExists
  rw [FS.read_remove_ne fs p q hne]

/-- Artifact paths built from the same directory and extension are
injective in the artifact name. -/
theorem artifactPath_inj (dstDir ext m n : Str)
    (h : dstDir ++ '/' :: m ++ '.' :: ext = dstDir ++ '/' :: n ++ '.' :: ext) : m = n := by
  have h1 : dstDir ++ '/' :: m = dstDir ++ '/' :: n := List.append_cancel_right h
  have h2 : '/' :: m = '/' :: n := List.append_cancel_left h1
  injection h2

/-- A Codex artifact path (ending in `toml`) never coincides with a
companion prompt path (ending in `md`). -/
theorem tomlPath_ne_promptPath (dstDir m n : Str) :
    dstDir ++ '/' :: m ++ '.' :: S "toml" ≠ dstDir ++ '/' :: n ++ S ".prompt.md" := by
  intro h
  have hpm : (S ".prompt.md" : Str) = '.' :: S "prompt.md" := by decide
  rw [hpm] at h
  have hl := congrArg List.getLast? h
  rw [List.getLast?_append_cons, List.getLast?_append_cons] at hl
  exact absurd hl (by decide)

/-- Existence of another artifact is unaffected by one orphan removal
step. -/
theorem pathExists_orphanStep (fs : FS) (dstDir ext h n : Str) (isCodex : Bool)
    (hcdx : isCodex = true → ext = S "toml") (hne : n ≠ h) :
    (cleanOrphanStep fs dstDir ext h isCodex).pathExists (dstDir ++ '/' :: n ++ '.' :: ext) =
      fs.pathExists (dstDir ++ '/' :: n ++ '.' :: ext) := by
  have hpne : dstDir ++ '/' :: n ++ '.' :: ext ≠ dstDir ++ '/' :: h ++ '.' :: ext :=
    fun hx => hne (artifactPath_inj _ _ _ _ hx)
  unfold cleanOrphanStep
  by_cases hic : isCodex = true
  · have hext := hcdx hic
    subst hext
    rw [if_pos hic]
    by_cases hpp : (fs.remove (dstDir ++ '/' :: h ++ '.' :: S "toml")).pathExists
        (dstDir ++ '/' :: h ++ S ".prompt.md") = true
    · rw [if_pos hpp, FS.pathExists_remove_ne _ _ _ (tomlPath_ne_promptPath dstDir n h),
        FS.pathExists_remove_ne _ _ _ hpne]
    · rw [if_neg hpp, FS.pathExists_remove_ne _ _ _ hpne]
  · rw [if_neg hic, FS.pathExists_remove_ne _ _ _ hpne]

/-- Removed-name characterization of the orphan loop: with distinct
previous names, a name is reported removed exactly when it is absent
from the current set and its artifact file exists, with no provenance
condition. -/
theorem cleanOrphanLoop_spec (dstDir ext : Str) (isCodex : Bool) (current : List Str)
    (dryRun : Bool) (hcdx : isCodex = true → ext = S "toml") :
    ∀ (names : List Str) (fs : FS), names.Nodup →
    (cleanOrphanLoop dstDir ext isCodex current dryRun names fs).1 =
      names.filter (fun n => !current.contains n &&
        fs.pathExists (dstDir ++ '/' :: n ++ '.' :: ext)) := by
  intro names
  induction names with
  | nil => intro fs _; rfl
  | cons h rest ih =>
      intro fs hnd
      have hndr : rest.Nodup := hnd.of_cons
      have hmem : h ∉ rest := (List.nodup_cons.mp hnd).1
      rw [List.filter_cons]
      unfold cleanOrphanLoop
      by_cases hcur : current.contains h = true
      · rw [if_pos hcur]
        have hcond : (!current.contains h &&
            fs.pathExists (dstDir ++ '/' :: h ++ '.' :: ext)) = false := by
          rw [hcur]
          rfl
        rw [hcond]
        simp only [Bool.false_eq_true, if_false]
        exact ih fs hndr
      · have hcurf : current.contains h = false := by
          cases hx : current.contains h
          · rfl
          · exact absurd hx hcur
        rw [if_neg hcur]
        by_cases hexist : fs.pathExists (dstDir ++ '/' :: h ++ '.' :: ext) = true
        · rw [if_neg (by rw [hexist]; simp)]
          have hcond : (!current.contains h &&
              fs.pathExists (dstDir ++ '/' :: h ++ '.' :: ext)) = true := by
            rw [hcurf, hexist]
            rfl
          rw [hcond]
          simp only [if_true]
          refine congrArg (h :: ·) ?_
          rw [ih _ hndr]
          refine List.filter_congr ?_
          intro n hn
          have hne : n ≠ h := fun hx => hmem (hx ▸ hn)
          by_cases hdry : dryRun = true
          · rw [if_pos hdry]
          · rw [if_neg hdry, pathExists_orphanStep fs dstDir ext h n isCodex hcdx hne]
        · have hexf : fs.pathExists (dstDir ++ '/' :: h ++ '.' :: ext) = false := by
            cases hx : fs.pathExists (dstDir ++ '/' :: h ++ '.' :: ext)
            · rfl
            · exact absurd hx hexist
          rw [if_pos (by rw [hexf]; rfl)]
          have hcond : (!current.contains h &&
              fs.pathExists (dstDir ++ '/' :: h ++ '.' :: ext)) = false := by
            rw [hexf]
            simp
          rw [hcond]
          simp only [Bool.false_eq_true, if_false]
          exact ih fs hndr

/-- C1 counterexample: a previously deployed artifact whose content a
human has fully rewritten, leaving no provenance, is still deleted by
orphan reconciliation; the claim requires it to be left untouched. -/
theorem C1_counterexample :
    is_synced_from (S "My hand-edited agent." ++ ['\n']) (S "OldName.md") = false ∧
    is_synced_from (S "My hand-edited agent." ++ ['\n']) (S "OldName") = false ∧
    clean_orphaned_agents (S "dest") (S "forge-council") [] .Claude false
      ⟨[(S "dest/.manifest", S "forge-council:" ++ ['\n'] ++ S "- OldName" ++ ['\n']),
        (S "dest/OldName.md", S "My hand-edited agent." ++ ['\n'])], []⟩ =
      (.ok [S "OldName"],
        ⟨[(S "dest/.manifest", S "forge-council:" ++ ['\n'] ++ S "- OldName" ++ ['\n'])], []⟩) := by
  refine ⟨by decide, by decide, by decide⟩

/-- C1 as amended: for every destination directory, module name, previous
manifest entry without duplicate names and current set, orphan
reconciliation reports removed exactly those previous names that are not
current and whose artifact file exists; the provenance of the artifact is
never consulted, so a human-edited orphan is deleted like any other. -/
theorem C1_orphan_retraction (dstDir module : Str) (current : List Str) (provider : Provider)
    (dryRun : Bool) (fs : FS) (hmod : module.isEmpty = false)
    (hnd : (manifest_read fs dstDir module).Nodup) :
    (clean_orphaned_agents dstDir module current provider dryRun fs).1 =
      .ok ((manifest_read fs dstDir module).filter
        (fun n => !current.contains n &&
          fs.pathExists (dstDir ++ '/' :: n ++ '.' :: provider.agent_extension))) := by
  unfold clean_orphaned_agents
  rw [if_neg (by simp [hmod])]
  simp only
  rw [cleanOrphanLoop_spec dstDir provider.agent_extension _ current dryRun
    (by cases provider <;> simp [Provider.agent_extension])
    (manifest_read fs dstDir module) fs hnd]

/-- Witness for C1 as amended, on the counterexample filesystem: the
hand-edited orphan is reported removed because its file exists. -/
theorem C1_orphan_retraction_witness :
    (clean_orphaned_agents (S "dest") (S "forge-council") [] .Claude false
      ⟨[(S "dest/.manifest", S "forge-council:" ++ ['\n'] ++ S "- OldName" ++ ['\n']),
        (S "dest/OldName.md", S "My hand-edited agent." ++ ['\n'])], []⟩).1 =
      .ok [S "OldName"] := by
  rw [C1_orphan_retraction _ _ _ _ _ _ (by decide) (by decide)]
  decide

/-- C2: deploying the same unchanged source twice to a Codex destination
is not idempotent: the first run deploys, but the artifact it writes
starts with a `# source:` line that `is_synced_from` does not recognize,
so the second run reports SkippedUserOwned instead of Deployed. -/
theorem C2_codex_redeploy_skipped :
    (deploy_agent docDev (S "Developer.md") (S "dst") .Codex ⟨YVal.null⟩ false [] ⟨[], []⟩).1 =
      .ok .Deployed ∧
    (deploy_agent docDev (S "Developer.md") (S "dst") .Codex ⟨YVal.null⟩ false []
      (deploy_agent docDev (S "Developer.md") (S "dst") .Codex ⟨YVal.null⟩ false [] ⟨[], []⟩).2).1 =
      .ok .SkippedUserOwned := by
  refine ⟨by decide, by decide⟩

/-- C3: the provenance check fails on the rendered Codex artifact of a
valid source document: the renderer writes a `# source:` first line while
the checker looks for a frontmatter `source:` field or a
`# synced-from:` first line. -/
theorem C3_codex_provenance_roundtrip_fails :
    (extract_agent_meta docDev (S "Developer.md") .Codex ⟨YVal.null⟩ []).map
      (fun m => is_synced_from
        (format_agent_output m (fm_body docDev) .Codex
          ((⟨YVal.null⟩ : SidecarConfig).is_model_whitelisted Provider.Codex.as_str m.model)).primary
        (S "Developer.md")) = some false := by
  decide

/-! Lemmas about line splitting and joining, toward the managed-block
theorems. -/

/-- Unfolding equation of `splitNLChar` on the empty string. -/
theorem splitNLChar_nil : splitNLChar ([] : Str) = [[]] := rfl

/-- Unfolding equation of `splitNLChar` on a cons. -/
theorem splitNLChar_cons (c : Char) (cs : Str) :
    splitNLChar (c :: cs) =
      if c = '\n' then [] :: splitNLChar cs else consHead c (splitNLChar cs) := rfl

/-- Splitting never yields an empty piece list. -/
theorem splitNLChar_ne_nil (s : Str) : splitNLChar s ≠ [] := by
  cases s with
  | nil => exact fun h => List.noConfusion h
  | cons c cs =>
      rw [splitNLChar_cons]
      by_cases hc : c = '\n'
      · rw [if_pos hc]
        exact fun h => List.noConfusion h
      · rw [if_neg hc]
        cases hsp : splitNLChar cs with
        | nil => exact fun h => List.noConfusion h
        | cons l ls => exact fun h => List.noConfusion h

/-- Pushing a character commutes with appending further pieces. -/
theorem consHead_append (c : Char) (x y : List Str) (hx : x ≠ []) :
    consHead c (x ++ y) = consHead c x ++ y := by
  cases x with
  | nil => exact absurd rfl hx
  | cons l ls => rfl

/-- Splitting distributes over a newline-separated concatenation. -/
theorem splitNLChar_append_nl (a b : Str) :
    splitNLChar (a ++ '\n' :: b) = splitNLChar a ++ splitNLChar b := by
  induction a with
  | nil =>
      rw [List.nil_append, splitNLChar_cons, if_pos rfl, splitNLChar_nil]
      rfl
  | cons c cs ih =>
      rw [List.cons_append, splitNLChar_cons, splitNLChar_cons]
      by_cases hc : c = '\n'
      · rw [if_pos hc, if_pos hc, ih]
        rfl
      · rw [if_neg hc, if_neg hc, ih, consHead_append c _ _ (splitNLChar_ne_nil cs)]

/-- A piece list of a newline-free string is that single piece. -/
theorem splitNLChar_no_nl (l : Str) (h : '\n' ∉ l) : splitNLChar l = [l] := by
  induction l with
  | nil => rfl
  | cons c cs ih =>
      rw [splitNLChar_cons]
      have hc : c ≠ '\n' := fun hx => h (hx ▸ List.mem_cons_self c cs)
      rw [if_neg hc, ih (fun hx => h (List.mem_cons_of_mem c hx))]
      rfl

/-- Every piece of a split is newline-free. -/
theorem splitNLChar_pieces_no_nl (s : Str) : ∀ p ∈ splitNLChar s, '\n' ∉ p := by
  induction s with
  | nil =>
      intro p hp
      rw [splitNLChar_nil] at hp
      rw [List.mem_singleton.mp hp]
      exact List.not_mem_nil '\n'
  | cons c cs ih =>
      intro p hp
      rw [splitNLChar_cons] at hp
      by_cases hc : c = '\n'
      · rw [if_pos hc] at hp
        rcases List.mem_cons.mp hp with rfl | hmem
        · exact List.not_mem_nil '\n'
        · exact ih p hmem
      · rw [if_neg hc] at hp
        cases hsp : splitNLChar cs with
        | nil => exact absurd hsp (splitNLChar_ne_nil cs)
        | cons l ls =>
            rw [hsp] at hp
            rcases List.mem_cons.mp hp with rfl | hmem
            · intro hin
              rcases List.mem_cons.mp hin with hxc | hxl
              · exact hc hxc.symm
              · exact ih l (hsp ▸ List.mem_cons_self l ls) hxl
            · exact ih p (hsp ▸ List.mem_cons_of_mem l hmem)

/-- Characters of every piece come from the split string. -/
theorem splitNLChar_pieces_subset (s : Str) : ∀ p ∈ splitNLChar s, ∀ c ∈ p, c ∈ s := by
  induction s with
  | nil =>
      intro p hp c hc
      rw [splitNLChar_nil] at hp
      rw [List.mem_singleton.mp hp] at hc
      exact absurd hc (List.not_mem_nil c)
  | cons a cs ih =>
      intro p hp c hc
      rw [splitNLChar_cons] at hp
      by_cases ha : a = '\n'
      · rw [if_pos ha] at hp
        rcases List.mem_cons.mp hp with rfl | hmem
        · exact absurd hc (List.not_mem_nil c)
        · exact List.mem_cons_of_mem a (ih p hmem c hc)
      · rw [if_neg ha] at hp
        cases hsp : splitNLChar cs with
        | nil => exact absurd hsp (splitNLChar_ne_nil cs)
        | cons l ls =>
            rw [hsp] at hp
            rcases List.mem_cons.mp hp with rfl | hmem
            · rcases List.mem_cons.mp hc with rfl | hcl
              · exact List.mem_cons_self c cs
              · exact List.mem_cons_of_mem a (ih l (hsp ▸ List.mem_cons_self l ls) c hcl)
            · exact List.mem_cons_of_mem a (ih p (hsp ▸ List.mem_cons_of_mem l hmem) c hc)

/-- Membership in the last element, self-contained. -/
theorem mem_of_getLast?_eq {α : Type} (l : List α) (c : α) (h : l.getLast? = some c) : c ∈ l := by
  induction l with
  | nil => exact absurd h (by simp)
  | cons a as ih =>
      cases as with
      | nil =>
          have : a = c := by simpa using h
          rw [this]
          exact List.mem_singleton.mpr rfl
      | cons b bs =>
          rw [List.getLast?_cons_cons] at h
          exact List.mem_cons_of_mem a (ih h)

/-- Membership survives `dropLast`. -/
theorem mem_of_mem_dropLast {α : Type} (l : List α) (c : α) (h : c ∈ l.dropLast) : c ∈ l := by
  induction l with
  | nil => exact absurd h (List.not_mem_nil c)
  | cons a as ih =>
      cases as with
      | nil => exact absurd h (List.not_mem_nil c)
      | cons b bs =>
          rcases List.mem_cons.mp h with rfl | hmem
          · exact List.mem_cons_self c _
          · exact List.mem_cons_of_mem a (ih hmem)

/-- Dropping a trailing carriage return only removes characters. -/
theorem dropTrailCR_subset (l : Str) : ∀ c ∈ dropTrailCR l, c ∈ l := by
  intro c hc
  unfold dropTrailCR at hc
  by_cases h : l.getLast? = some '\r'
  · rw [if_pos h] at hc
    exact mem_of_mem_dropLast l c hc
  · rw [if_neg h] at hc
    exact hc

/-- A carriage-return-free line is unchanged by the trailing strip. -/
theorem dropTrailCR_of_no_cr (l : Str) (h : '\r' ∉ l) : dropTrailCR l = l := by
  unfold dropTrailCR
  rw [if_neg]
  intro hx
  exact h (mem_of_getLast?_eq l '\r' hx)

/-- Peeling the first newline-terminated line off `rustLines`. -/
theorem rustLines_cons (l t : Str) (hnl : '\n' ∉ l) :
    rustLines (l ++ '\n' :: t) = dropTrailCR l :: rustLines t := by
  unfold rustLines
  rw [splitNLChar_append_nl, splitNLChar_no_nl l hnl]
  cases hsp : splitNLChar t with
  | nil => exact absurd hsp (splitNLChar_ne_nil t)
  | cons p ps =>
      show (((l :: p :: ps).dropLast).map dropTrailCR) ++ _ =
        dropTrailCR l :: (((p :: ps).dropLast).map dropTrailCR) ++ _
      rw [show (l :: p :: ps).dropLast = l :: (p :: ps).dropLast from rfl, List.map_cons,
        List.singleton_append, List.getLast?_cons_cons]

/-- Joining distributes over concatenation. -/
theorem joinNL_append (a b : List Str) : joinNL (a ++ b) = joinNL a ++ joinNL b := by
  induction a with
  | nil => rfl
  | cons l ls ih =>
      show l ++ '\n' :: joinNL (ls ++ b) = (l ++ '\n' :: joinNL ls) ++ joinNL b
      rw [ih, List.append_assoc]
      rfl

/-- Lines reassemble from a join of newline-free, carriage-return-free
lines. -/
theorem rustLines_joinNL (M : List Str)
    (hM : ∀ l ∈ M, '\n' ∉ l ∧ '\r' ∉ l) :
    rustLines (joinNL M) = M := by
  induction M with
  | nil => rfl
  | cons l ls ih =>
      have hl := hM l (List.mem_cons_self l ls)
      have hrest : ∀ m ∈ ls, '\n' ∉ m ∧ '\r' ∉ m := fun m hm => hM m (List.mem_cons_of_mem l hm)
      show rustLines (l ++ '\n' :: joinNL ls) = l :: ls
      rw [rustLines_cons l (joinNL ls) hl.1, dropTrailCR_of_no_cr l hl.2, ih hrest]

/-! Managed-block filter and trim lemmas. -/

/-- Unfolding equation of `filterBlock` on a cons. -/
theorem filterBlock_cons (b e l : Str) (rest : List Str) (sk : Bool) :
    filterBlock b e sk (l :: rest) =
      if l == b then filterBlock b e true rest
      else if l == e then filterBlock b e false rest
      else if sk then filterBlock b e sk rest
      else l :: filterBlock b e sk rest := rfl

/-- Marker-free prefixes pass through the block filter unchanged. -/
theorem filterBlock_append_clean (b e : Str) (X Y : List Str)
    (hX : ∀ l ∈ X, l ≠ b ∧ l ≠ e) :
    filterBlock b e false (X ++ Y) = X ++ filterBlock b e false Y := by
  induction X with
  | nil => rfl
  | cons l ls ih =>
      have hl := hX l (List.mem_cons_self l ls)
      have hls : ∀ m ∈ ls, m ≠ b ∧ m ≠ e := fun m hm => hX m (List.mem_cons_of_mem l hm)
      rw [List.cons_append, filterBlock_cons]
      rw [if_neg (by simp [hl.1]), if_neg (by simp [hl.2]), if_neg (by simp)]
      rw [ih hls, List.cons_append]

/-- In skip mode, marker-free lines are discarded. -/
theorem filterBlock_skip_through (b e : Str) (X Y : List Str)
    (hX : ∀ l ∈ X, l ≠ b ∧ l ≠ e) :
    filterBlock b e true (X ++ Y) = filterBlock b e true Y := by
  induction X with
  | nil => rfl
  | cons l ls ih =>
      have hl := hX l (List.mem_cons_self l ls)
      have hls : ∀ m ∈ ls, m ≠ b ∧ m ≠ e := fun m hm => hX m (List.mem_cons_of_mem l hm)
      rw [List.cons_append, filterBlock_cons]
      rw [if_neg (by simp [hl.1]), if_neg (by simp [hl.2]), if_pos rfl]
      exact ih hls

/-- A whole delimited block filters to nothing. -/
theorem filterBlock_block (b e : Str) (mid : List Str)
    (hmid : ∀ l ∈ mid, l ≠ b ∧ l ≠ e) (hbe : e ≠ b) :
    filterBlock b e false (b :: (mid ++ [e])) = [] := by
  rw [filterBlock_cons, if_pos (by simp)]
  rw [filterBlock_skip_through b e mid [e] hmid]
  rw [filterBlock_cons, if_neg (by simp [hbe]), if_pos (by simp)]
  rfl

/-- Every surviving line of the block filter comes from the input and is
not a marker line. -/
theorem filterBlock_mem (b e : Str) :
    ∀ (ls : List Str) (sk : Bool), ∀ l ∈ filterBlock b e sk ls, l ∈ ls ∧ l ≠ b ∧ l ≠ e := by
  intro ls
  induction ls with
  | nil => intro sk l hl; exact absurd hl (List.not_mem_nil l)
  | cons x xs ih =>
      intro sk l hl
      rw [filterBlock_cons] at hl
      by_cases hxb : x = b
      · rw [if_pos (by simp [hxb])] at hl
        obtain ⟨h1, h2⟩ := ih true l hl
        exact ⟨List.mem_cons_of_mem x h1, h2⟩
      · rw [if_neg (by simp [hxb])] at hl
        by_cases hxe : x = e
        · rw [if_pos (by simp [hxe])] at hl
          obtain ⟨h1, h2⟩ := ih false l hl
          exact ⟨List.mem_cons_of_mem x h1, h2⟩
        · rw [if_neg (by simp [hxe])] at hl
          cases sk with
          | true =>
              rw [if_pos (by simp)] at hl
              obtain ⟨h1, h2⟩ := ih true l hl
              exact ⟨List.mem_cons_of_mem x h1, h2⟩
          | false =>
              rw [if_neg (by simp)] at hl
              rcases List.mem_cons.mp hl with rfl | hmem
              · exact ⟨List.mem_cons_self l xs, hxb, hxe⟩
              · obtain ⟨h1, h2⟩ := ih false l hmem
                exact ⟨List.mem_cons_of_mem x h1, h2⟩

/-! Trailing-blank-line normalization at the line level. -/

/-- Removal of trailing empty lines. -/
def dropTrailEmpty (M : List Str) : List Str :=
  (M.reverse.dropWhile (fun l => l.isEmpty)).reverse

/-- Line-level picture of the character-level trailing-newline trim: all
trailing empty lines vanish, except that a fully empty, non-empty line
list leaves one empty line. -/
def normTrail (M : List Str) : List Str :=
  if dropTrailEmpty M = [] then (if M = [] then [] else [[]]) else dropTrailEmpty M

/-- A join of empty lines is a run of newlines. -/
theorem joinNL_all_empty (X : List Str) (hX : ∀ l ∈ X, l = []) :
    joinNL X = List.replicate X.length '\n' := by
  induction X with
  | nil => rfl
  | cons l ls ih =>
      have hl := hX l (List.mem_cons_self l ls)
      show l ++ '\n' :: joinNL ls = List.replicate (ls.length + 1) '\n'
      rw [hl, ih (fun m hm => hX m (List.mem_cons_of_mem l hm)), List.nil_append,
        List.replicate_succ]

/-- Drop-while eats a satisfying run. -/
theorem dropWhile_replicate_append (p : Char → Bool) (a : Char) (k : Nat) (rest : Str)
    (hp : p a = true) :
    (List.replicate k a ++ rest).dropWhile p = rest.dropWhile p := by
  induction k with
  | zero => rfl
  | succ n ih =>
      rw [List.replicate_succ, List.cons_append, List.dropWhile_cons_of_pos hp]
      exact ih

/-- Drop-while consumes an entire satisfying run. -/
theorem dropWhile_replicate (p : Char → Bool) (a : Char) (k : Nat) (hp : p a = true) :
    (List.replicate k a).dropWhile p = [] := by
  have h := dropWhile_replicate_append p a k [] hp
  rw [List.append_nil] at h
  rw [h]
  rfl

/-- Trimming a pure newline run caps it at one newline. -/
theorem trimTrailNL_replicate (k : Nat) (hk : 1 ≤ k) :
    trimTrailNL (List.replicate k '\n') = ['\n'] := by
  unfold trimTrailNL
  rw [List.reverse_replicate]
  cases k with
  | zero => exact absurd hk (by decide)
  | succ n =>
      cases n with
      | zero =>
          rw [if_neg (by decide)]
          rfl
      | succ m =>
          rw [if_pos (by rw [List.replicate_succ, List.replicate_succ]; simp [List.isPrefixOf])]
          rw [show List.replicate (m + 1 + 1) '\n' = '\n' :: List.replicate (m + 1) '\n' from
            List.replicate_succ '\n' (m + 1)]
          rw [List.dropWhile_cons_of_pos (by simp), dropWhile_replicate _ '\n' (m + 1) (by simp)]
          rfl

/-- A nonempty join ends in a newline; spelled through the reverse. -/
theorem joinNL_reverse_concat (M : List Str) (L : Str) :
    (joinNL (M ++ [L])).reverse = '\n' :: L.reverse ++ (joinNL M).reverse := by
  rw [joinNL_append]
  show (joinNL M ++ (L ++ '\n' :: joinNL [])).reverse = _
  rw [show joinNL ([] : List Str) = [] from rfl]
  rw [List.reverse_append, List.reverse_append]
  simp

/-- Character-level trim equals line-level normalization on joins of
newline-free lines. -/
theorem trimTrailNL_joinNL (M : List Str) (hM : ∀ l ∈ M, '\n' ∉ l) :
    trimTrailNL (joinNL M) = joinNL (normTrail M) := by
  have hsplit := (List.takeWhile_append_dropWhile (p := fun l : Str => l.isEmpty)
    (l := M.reverse)).symm
  set K := M.reverse.takeWhile (fun l : Str => l.isEmpty) with hK
  set D := M.reverse.dropWhile (fun l : Str => l.isEmpty) with hD
  have hMrev : M.reverse = K ++ D := hsplit
  have hMeq : M = D.reverse ++ K.reverse := by
    have := congrArg List.reverse hMrev
    rw [List.reverse_reverse, List.reverse_append] at this
    exact this
  have hKempty : ∀ l ∈ K.reverse, l = [] := by
    intro l hl
    have hlK : l ∈ K := List.mem_reverse.mp hl
    have := List.mem_takeWhile_imp (hK ▸ hlK)
    exact List.isEmpty_iff.mp this
  have hJK : joinNL K.reverse = List.replicate K.length '\n' := by
    rw [joinNL_all_empty K.reverse hKempty, List.length_reverse]
  cases hDc : D with
  | nil =>
      have hMall : ∀ l ∈ M, l = [] := by
        intro l hl
        apply hKempty
        rw [hMeq, hDc] at hl
        simpa using hl
      have hJM : joinNL M = List.replicate M.length '\n' := joinNL_all_empty M hMall
      have hDTE : dropTrailEmpty M = [] := by
        unfold dropTrailEmpty
        rw [← hD, hDc]
        rfl
      by_cases hMnil : M = []
      · rw [hMnil]
        rfl
      · have hlen : 1 ≤ M.length := List.length_pos.mpr hMnil
        rw [hJM, trimTrailNL_replicate M.length hlen]
        unfold normTrail
        rw [hDTE, if_pos rfl, if_neg hMnil]
        rfl
  | cons L D' =>
      have hLne : L.isEmpty = false := by
        have := List.head_dropWhile_not (p := fun l : Str => l.isEmpty) (l := M.reverse)
        rw [← hD, hDc] at this
        simpa using this (by exact fun hx => List.noConfusion hx)
      have hLnil : L ≠ [] := by
        intro hx
        rw [hx] at hLne
        exact Bool.noConfusion hLne
      have hLmem : L ∈ M := by
        rw [hMeq, hDc]
        exact List.mem_append.mpr (Or.inl (by simp))
      have hLnoNL : '\n' ∉ L := hM L hLmem
      obtain ⟨c, w, hLrev⟩ : ∃ c w, L.reverse = c :: w := by
        cases hLr : L.reverse with
        | nil => exact absurd (List.reverse_eq_nil_iff.mp hLr) hLnil
        | cons c w => exact ⟨c, w, rfl⟩
      have hcL : c ∈ L := by
        have : c ∈ L.reverse := by rw [hLrev]; exact List.mem_cons_self c w
        exact List.mem_reverse.mp this
      have hcNL : c ≠ '\n' := fun hx => hLnoNL (hx ▸ hcL)
      have hDrev : D.reverse = D'.reverse ++ [L] := by rw [hDc]; simp
      have hRev : (joinNL D.reverse).reverse = '\n' :: c :: (w ++ (joinNL D'.reverse).reverse) := by
        rw [hDrev, joinNL_reverse_concat, hLrev]
        simp
      have hJM : joinNL M = joinNL D.reverse ++ List.replicate K.length '\n' := by
        rw [hMeq, joinNL_append, hJK]
      have hDTE : dropTrailEmpty M = D.reverse := by
        unfold dropTrailEmpty
        rw [← hD]
      have hNT : normTrail M = D.reverse := by
        unfold normTrail
        rw [hDTE]
        rw [if_neg (by rw [hDc]; simp)]
      rw [hNT, hJM]
      cases hk : K.length with
      | zero =>
          rw [List.replicate_zero, List.append_nil]
          unfold trimTrailNL
          rw [if_neg]
          intro hpre
          rw [hRev] at hpre
          simp [List.isPrefixOf] at hpre
          exact hcNL hpre.symm
      | succ k' =>
          unfold trimTrailNL
          have hXrev : (joinNL D.reverse ++ List.replicate (k' + 1) '\n').reverse =
              List.replicate (k' + 1) '\n' ++ '\n' :: c :: (w ++ (joinNL D'.reverse).reverse) := by
            rw [List.reverse_append, List.reverse_replicate, hRev]
          rw [hXrev]
          rw [if_pos]
          · rw [List.replicate_succ, List.cons_append,
              List.dropWhile_cons_of_pos (by simp),
              dropWhile_replicate_append _ '\n' k' _ (by simp),
              List.dropWhile_cons_of_pos (by simp),
              List.dropWhile_cons_of_neg (by simp [hcNL])]
            rw [show ('\n' :: (c :: (w ++ (joinNL D'.reverse).reverse)) : Str).reverse =
                ('\n' :: c :: (w ++ (joinNL D'.reverse).reverse) : Str).reverse from rfl]
            rw [← hRev, List.reverse_reverse]
          · rw [List.replicate_succ, List.cons_append]
            cases k' with
            | zero => simp [List.isPrefixOf]
            | succ k2 => rw [List.replicate_succ, List.cons_append]; simp [List.isPrefixOf]

/-! Normalization support and line facts for the managed-block
theorems. -/

/-- A join is empty only for the empty line list. -/
theorem joinNL_eq_nil_iff (M : List Str) : joinNL M = [] ↔ M = [] := by
  cases M with
  | nil => exact ⟨fun _ => rfl, fun _ => rfl⟩
  | cons l ls =>
      constructor
      · intro h
        exact absurd h (by cases l <;> exact fun hx => List.noConfusion hx)
      · intro h
        exact absurd h (fun hx => List.noConfusion hx)

/-- A nonempty join ends in a newline. -/
theorem joinNL_getLast? (M : List Str) (hM : M ≠ []) :
    (joinNL M).getLast? = some '\n' := by
  rcases List.eq_nil_or_concat M with rfl | ⟨M2, L, rfl⟩
  · exact absurd rfl hM
  · rw [List.concat_eq_append, joinNL_append]
    rw [show joinNL [L] = L ++ ['\n'] from by rfl]
    rw [← List.append_assoc]
    exact List.getLast?_concat _

/-- Appending one empty line does not change the trailing-empty strip. -/
theorem dropTrailEmpty_append_empty (X : List Str) :
    dropTrailEmpty (X ++ [[]]) = dropTrailEmpty X := by
  unfold dropTrailEmpty
  rw [List.reverse_append]
  rw [show (([[]] : List Str).reverse ++ X.reverse) = [] :: X.reverse from rfl]
  rw [List.dropWhile_cons_of_pos (by rfl)]

/-- Dropping a satisfied prefix twice is the same as once. -/
theorem dropWhile_idem {α : Type} (p : α → Bool) (l : List α) :
    (l.dropWhile p).dropWhile p = l.dropWhile p := by
  induction l with
  | nil => rfl
  | cons a as ih =>
      by_cases hpa : p a = true
      · rw [List.dropWhile_cons_of_pos hpa, ih]
      · rw [List.dropWhile_cons_of_neg (by simpa using hpa),
          List.dropWhile_cons_of_neg (by simpa using hpa)]

/-- The trailing-empty strip is idempotent. -/
theorem dropTrailEmpty_idem (X : List Str) :
    dropTrailEmpty (dropTrailEmpty X) = dropTrailEmpty X := by
  unfold dropTrailEmpty
  rw [List.reverse_reverse, dropWhile_idem]

/-- Adding an empty last line and renormalizing recovers the
normalization, for nonempty line lists. -/
theorem normTrail_append_empty (M : List Str) (hM : M ≠ []) :
    normTrail (normTrail M ++ [[]]) = normTrail M := by
  unfold normTrail
  by_cases hD : dropTrailEmpty M = []
  · rw [hD, if_pos rfl, if_neg hM]
    rw [show dropTrailEmpty (([[]] : List Str) ++ [[]]) = dropTrailEmpty ([[]] : List Str) from
      dropTrailEmpty_append_empty [[]]]
    rw [show dropTrailEmpty ([[]] : List Str) = [] from rfl]
    rw [if_pos rfl]
    rw [if_neg (fun hx => List.noConfusion hx)]
  · rw [if_neg hD, dropTrailEmpty_append_empty, dropTrailEmpty_idem, if_neg hD]

/-- Lines surviving normalization come from the input or are empty. -/
theorem normTrail_mem (M : List Str) (l : Str) (hl : l ∈ normTrail M) : l ∈ M ∨ l = [] := by
  unfold normTrail at hl
  by_cases hD : dropTrailEmpty M = []
  · rw [hD, if_pos rfl] at hl
    by_cases hM : M = []
    · rw [if_pos hM] at hl
      exact absurd hl (List.not_mem_nil l)
    · rw [if_neg hM] at hl
      exact Or.inr (List.mem_singleton.mp hl)
  · rw [if_neg hD] at hl
    unfold dropTrailEmpty at hl
    have h1 : l ∈ M.reverse.dropWhile (fun x : Str => x.isEmpty) := List.mem_reverse.mp hl
    have h2 : l ∈ M.reverse := (List.dropWhile_sublist _).mem h1
    exact Or.inl (List.mem_reverse.mp h2)

/-- Every reassembled line is newline-free. -/
theorem rustLines_no_nl (s : Str) : ∀ l ∈ rustLines s, '\n' ∉ l := by
  intro l hl
  unfold rustLines at hl
  rcases List.mem_append.mp hl with hmem | hlast
  · obtain ⟨p, hp, rfl⟩ := List.mem_map.mp hmem
    have hpp : p ∈ splitNLChar s := mem_of_mem_dropLast _ p hp
    intro hin
    exact splitNLChar_pieces_no_nl s p hpp (dropTrailCR_subset p '\n' hin)
  · cases hgl : (splitNLChar s).getLast? with
    | none => rw [hgl] at hlast; exact absurd hlast (List.not_mem_nil l)
    | some p =>
        rw [hgl] at hlast
        cases p with
        | nil => exact absurd hlast (List.not_mem_nil l)
        | cons a as =>
            have : l = a :: as := List.mem_singleton.mp hlast
            rw [this]
            exact splitNLChar_pieces_no_nl s (a :: as) (mem_of_getLast?_eq _ _ hgl)

/-- Characters of reassembled lines come from the source string. -/
theorem rustLines_subset (s : Str) : ∀ l ∈ rustLines s, ∀ c ∈ l, c ∈ s := by
  intro l hl c hc
  unfold rustLines at hl
  rcases List.mem_append.mp hl with hmem | hlast
  · obtain ⟨p, hp, rfl⟩ := List.mem_map.mp hmem
    have hpp : p ∈ splitNLChar s := mem_of_mem_dropLast _ p hp
    exact splitNLChar_pieces_subset s p hpp c (dropTrailCR_subset p c hc)
  · cases hgl : (splitNLChar s).getLast? with
    | none => rw [hgl] at hlast; exact absurd hlast (List.not_mem_nil l)
    | some p =>
        rw [hgl] at hlast
        cases p with
        | nil => exact absurd hlast (List.not_mem_nil l)
        | cons a as =>
            have hle : l = a :: as := List.mem_singleton.mp hlast
            rw [hle] at hc
            exact splitNLChar_pieces_subset s (a :: as) (mem_of_getLast?_eq _ _ hgl) c hc

/-- Escaping emits backslashes and original characters only. -/
theorem toml_escape_chars (v : Str) : ∀ c ∈ toml_escape v, c = '\\' ∨ c ∈ v := by
  induction v with
  | nil => intro c hc; exact absurd hc (List.not_mem_nil c)
  | cons a rest ih =>
      intro c hc
      unfold toml_escape at hc
      by_cases ha : a = '\\'
      · rw [if_pos ha] at hc
        rcases List.mem_cons.mp hc with rfl | hc2
        · exact Or.inl rfl
        · rcases List.mem_cons.mp hc2 with rfl | hc3
          · exact Or.inl rfl
          · rcases ih c hc3 with h | h
            · exact Or.inl h
            · exact Or.inr (List.mem_cons_of_mem a h)
      · rw [if_neg ha] at hc
        by_cases hq : a = '"'
        · rw [if_pos hq] at hc
          rcases List.mem_cons.mp hc with rfl | hc2
          · exact Or.inl rfl
          · rcases List.mem_cons.mp hc2 with rfl | hc3
            · exact Or.inr (hq ▸ List.mem_cons_self a rest)
            · rcases ih c hc3 with h | h
              · exact Or.inl h
              · exact Or.inr (List.mem_cons_of_mem a h)
        · rw [if_neg hq] at hc
          rcases List.mem_cons.mp hc with rfl | hc2
          · exact Or.inr (List.mem_cons_self c rest)
          · rcases ih c hc2 with h | h
            · exact Or.inl h
            · exact Or.inr (List.mem_cons_of_mem a h)

/-- Absence of newline and carriage return in a string. -/
def noNLCR (s : Str) : Prop := '\n' ∉ s ∧ '\r' ∉ s

/-- Benign Codex configuration entries: no newline or carriage return in
names or descriptions. -/
def entriesOk (es : List CodexConfigEntry) : Prop :=
  ∀ en ∈ es, noNLCR en.name ∧ noNLCR en.description

/-- Instances for discharging `noNLCR` by evaluation. -/
instance (s : Str) : Decidable (noNLCR s) := by
  unfold noNLCR
  infer_instance

/-- Instances for discharging `entriesOk` by evaluation. -/
instance (es : List CodexConfigEntry) : Decidable (entriesOk es) := by
  unfold entriesOk
  infer_instance

/-- Concatenation preserves benignity. -/
theorem noNLCR_append (a b : Str) (ha : noNLCR a) (hb : noNLCR b) : noNLCR (a ++ b) := by
  constructor
  · intro h
    rcases List.mem_append.mp h with h | h
    · exact ha.1 h
    · exact hb.1 h
  · intro h
    rcases List.mem_append.mp h with h | h
    · exact ha.2 h
    · exact hb.2 h

/-- Escaping preserves benignity. -/
theorem noNLCR_toml_escape (v : Str) (hv : noNLCR v) : noNLCR (toml_escape v) := by
  constructor
  · intro h
    rcases toml_escape_chars v '\n' h with h | h
    · exact absurd h (by decide)
    · exact hv.1 h
  · intro h
    rcases toml_escape_chars v '\r' h with h | h
    · exact absurd h (by decide)
    · exact hv.2 h

/-- Interior lines of the rendered block. -/
def codexMidLines (entries : List CodexConfigEntry) (pre : Str) : List Str :=
  (S "# Generated by install-agents (" ++ pre ++ [')']) ::
    (entries.map (fun e =>
      [([] : Str),
       S "[agents." ++ e.name ++ [']'],
       S "description = \"" ++ toml_escape e.description ++ ['"'],
       S "config_file = \"agents/" ++ toml_escape e.name ++ S ".toml\""])).flatten

/-- The rendered block is delimiters around the interior lines. -/
theorem codexBlockLines_eq (entries : List CodexConfigEntry) (pre : Str) :
    codexBlockLines entries pre =
      CODEX_BLOCK_BEGIN :: (codexMidLines entries pre ++ [CODEX_BLOCK_END]) := by
  unfold codexBlockLines codexMidLines
  rw [List.cons_append, List.cons_append, List.singleton_append]

/-! Marker-freedom and benignity of rendered block lines, and the main
managed-block lemmas. -/

/-- A string determined on its first characters differs from any string
with other ones there. -/
theorem take_prefix_ne (n : Nat) (A rest B : Str) (hn : n ≤ A.length)
    (hne : A.take n ≠ B.take n) : A ++ rest ≠ B := by
  intro h
  apply hne
  rw [← h, List.take_append_of_le_length hn]

/-- No interior line of the rendered block is a delimiter line. -/
theorem codexMidLines_ne_markers (entries : List CodexConfigEntry) (pre : Str) :
    ∀ l ∈ codexMidLines entries pre, l ≠ CODEX_BLOCK_BEGIN ∧ l ≠ CODEX_BLOCK_END := by
  intro l hl
  unfold codexMidLines at hl
  rcases List.mem_cons.mp hl with rfl | hmem
  · constructor
    · intro h
      rw [List.append_assoc] at h
      exact take_prefix_ne 3 _ _ _ (by decide) (by decide) h
    · intro h
      rw [List.append_assoc] at h
      exact take_prefix_ne 3 _ _ _ (by decide) (by decide) h
  · obtain ⟨group, hgroup, hlg⟩ := List.mem_flatten.mp hmem
    obtain ⟨en, _, rfl⟩ := List.mem_map.mp hgroup
    rcases List.mem_cons.mp hlg with rfl | h2
    · exact ⟨by decide, by decide⟩
    · rcases List.mem_cons.mp h2 with rfl | h3
      · constructor
        · intro h
          rw [List.append_assoc] at h
          exact take_prefix_ne 1 _ _ _ (by decide) (by decide) h
        · intro h
          rw [List.append_assoc] at h
          exact take_prefix_ne 1 _ _ _ (by decide) (by decide) h
      · rcases List.mem_cons.mp h3 with rfl | h4
        · constructor
          · intro h
            rw [List.append_assoc] at h
            exact take_prefix_ne 1 _ _ _ (by decide) (by decide) h
          · intro h
            rw [List.append_assoc] at h
            exact take_prefix_ne 1 _ _ _ (by decide) (by decide) h
        · rcases List.mem_cons.mp h4 with rfl | h5
          · constructor
            · intro h
              rw [List.append_assoc] at h
              exact take_prefix_ne 1 _ _ _ (by decide) (by decide) h
            · intro h
              rw [List.append_assoc] at h
              exact take_prefix_ne 1 _ _ _ (by decide) (by decide) h
          · exact absurd h5 (List.not_mem_nil l)

/-- Rendered block lines contain no newline or carriage return when the
entries and the prefix are benign. -/
theorem codexBlockLines_noNLCR (entries : List CodexConfigEntry) (pre : Str)
    (he : entriesOk entries) (hp : noNLCR pre) :
    ∀ l ∈ codexBlockLines entries pre, '\n' ∉ l ∧ '\r' ∉ l := by
  intro l hl
  rw [codexBlockLines_eq] at hl
  have goal : noNLCR l := by
    rcases List.mem_cons.mp hl with rfl | hmem
    · exact ⟨by decide, by decide⟩
    · rcases List.mem_append.mp hmem with hmid | hend
      · unfold codexMidLines at hmid
        rcases List.mem_cons.mp hmid with rfl | hflat
        · exact noNLCR_append _ _ (noNLCR_append _ _ ⟨by decide, by decide⟩ hp) ⟨by decide, by decide⟩
        · obtain ⟨group, hgroup, hlg⟩ := List.mem_flatten.mp hflat
          obtain ⟨en, hen, rfl⟩ := List.mem_map.mp hgroup
          have hename := (he en hen).1
          have hedesc := (he en hen).2
          rcases List.mem_cons.mp hlg with rfl | h2
          · exact ⟨by simp, by simp⟩
          · rcases List.mem_cons.mp h2 with rfl | h3
            · exact noNLCR_append _ _ (noNLCR_append _ _ ⟨by decide, by decide⟩ hename)
                ⟨by decide, by decide⟩
            · rcases List.mem_cons.mp h3 with rfl | h4
              · exact noNLCR_append _ _
                  (noNLCR_append _ _ ⟨by decide, by decide⟩ (noNLCR_toml_escape _ hedesc))
                  ⟨by decide, by decide⟩
              · rcases List.mem_cons.mp h4 with rfl | h5
                · exact noNLCR_append _ _
                    (noNLCR_append _ _ ⟨by decide, by decide⟩ (noNLCR_toml_escape _ hename))
                    ⟨by decide, by decide⟩
                · exact absurd h5 (List.not_mem_nil l)
      · rw [List.mem_singleton.mp hend]
        exact ⟨by decide, by decide⟩
  exact goal

/-- Stripping after rendering recovers the stripped prior content: the
rendered block is removed whole and the separator blank line is trimmed
away again. -/
theorem strip_renderCodexConfig (c : Str) (entries : List CodexConfigEntry) (pre : Str)
    (he : entriesOk entries) (hp : noNLCR pre) (hcr : '\r' ∉ c) :
    strip_managed_block (renderCodexConfig c entries pre) CODEX_BLOCK_BEGIN CODEX_BLOCK_END =
      strip_managed_block c CODEX_BLOCK_BEGIN CODEX_BLOCK_END := by
  set M0 := filterBlock CODEX_BLOCK_BEGIN CODEX_BLOCK_END false (rustLines c) with hM0def
  have hM0 : ∀ l ∈ M0, ('\n' ∉ l ∧ '\r' ∉ l) ∧ l ≠ CODEX_BLOCK_BEGIN ∧ l ≠ CODEX_BLOCK_END := by
    intro l hl
    have hmem := filterBlock_mem CODEX_BLOCK_BEGIN CODEX_BLOCK_END (rustLines c) false l hl
    refine ⟨⟨rustLines_no_nl c l hmem.1, fun hin => hcr (rustLines_subset c l hmem.1 '\r' hin)⟩,
      hmem.2⟩
  have hstrip : strip_managed_block c CODEX_BLOCK_BEGIN CODEX_BLOCK_END = joinNL (normTrail M0) := by
    unfold strip_managed_block
    exact trimTrailNL_joinNL M0 (fun l hl => (hM0 l hl).1.1)
  have hM'props : ∀ l ∈ normTrail M0,
      ('\n' ∉ l ∧ '\r' ∉ l) ∧ l ≠ CODEX_BLOCK_BEGIN ∧ l ≠ CODEX_BLOCK_END := by
    intro l hl
    rcases normTrail_mem M0 l hl with h | rfl
    · exact hM0 l h
    · exact ⟨⟨by simp, by simp⟩, by decide, by decide⟩
  have hblock : ∀ l ∈ codexBlockLines entries pre, '\n' ∉ l ∧ '\r' ∉ l :=
    codexBlockLines_noNLCR entries pre he hp
  by_cases hMnil : normTrail M0 = []
  · have hSe : strip_managed_block c CODEX_BLOCK_BEGIN CODEX_BLOCK_END = [] := by
      rw [hstrip, hMnil]
      rfl
    have hrender : renderCodexConfig c entries pre = format_codex_config_block entries pre := by
      unfold renderCodexConfig
      rw [if_pos (by rw [hSe]; rfl)]
    rw [hrender, hSe]
    unfold format_codex_config_block strip_managed_block
    rw [rustLines_joinNL _ hblock, codexBlockLines_eq,
      filterBlock_block _ _ _ (codexMidLines_ne_markers entries pre) (by decide)]
    rfl
  · have hM0nil : M0 ≠ [] := by
      intro h
      apply hMnil
      rw [h]
      rfl
    have hSne : ¬((strip_managed_block c CODEX_BLOCK_BEGIN CODEX_BLOCK_END).isEmpty = true) := by
      rw [hstrip]
      intro h
      exact hMnil ((joinNL_eq_nil_iff _).mp (List.isEmpty_iff.mp h))
    have hSlast : (strip_managed_block c CODEX_BLOCK_BEGIN CODEX_BLOCK_END).getLast? =
        some '\n' := by
      rw [hstrip]
      exact joinNL_getLast? _ hMnil
    have hrender : renderCodexConfig c entries pre =
        joinNL ((normTrail M0 ++ [[]]) ++ codexBlockLines entries pre) := by
      unfold renderCodexConfig
      rw [if_neg hSne, if_pos hSlast, hstrip, List.append_nil]
      unfold format_codex_config_block
      rw [joinNL_append, joinNL_append]
      rw [show joinNL ([[]] : List Str) = ['\n'] from rfl, List.append_assoc]
      rfl
    have hXlines : ∀ l ∈ (normTrail M0 ++ [[]]) ++ codexBlockLines entries pre,
        '\n' ∉ l ∧ '\r' ∉ l := by
      intro l hl
      rcases List.mem_append.mp hl with h1 | h2
      · rcases List.mem_append.mp h1 with h3 | h4
        · exact (hM'props l h3).1
        · rw [List.mem_singleton.mp h4]
          exact ⟨by simp, by simp⟩
      · exact hblock l h2
    have hXclean : ∀ l ∈ normTrail M0 ++ [[]],
        l ≠ CODEX_BLOCK_BEGIN ∧ l ≠ CODEX_BLOCK_END := by
      intro l hl
      rcases List.mem_append.mp hl with h1 | h2
      · exact (hM'props l h1).2
      · rw [List.mem_singleton.mp h2]
        exact ⟨by decide, by decide⟩
    rw [hrender]
    unfold strip_managed_block
    rw [rustLines_joinNL _ hXlines, codexBlockLines_eq,
      filterBlock_append_clean _ _ _ _ hXclean,
      filterBlock_block _ _ _ (codexMidLines_ne_markers entries pre) (by decide),
      List.append_nil]
    rw [trimTrailNL_joinNL _ (fun l hl => (hXlines l (List.mem_append.mpr (Or.inl hl))).1)]
    rw [normTrail_append_empty M0 hM0nil]
    exact (trimTrailNL_joinNL M0 (fun l hl => (hM0 l hl).1.1)).symm

/-- Rendering only depends on the prior content through its stripped
form. -/
theorem renderCodexConfig_congr (X Y : Str) (entries : List CodexConfigEntry) (pre : Str)
    (h : strip_managed_block X CODEX_BLOCK_BEGIN CODEX_BLOCK_END =
      strip_managed_block Y CODEX_BLOCK_BEGIN CODEX_BLOCK_END) :
    renderCodexConfig X entries pre = renderCodexConfig Y entries pre := by
  unfold renderCodexConfig
  rw [h]

/-- Rendering is idempotent on benign entries and carriage-return-free
prior content. -/
theorem renderCodexConfig_idem (c : Str) (entries : List CodexConfigEntry) (pre : Str)
    (he : entriesOk entries) (hp : noNLCR pre) (hcr : '\r' ∉ c) :
    renderCodexConfig (renderCodexConfig c entries pre) entries pre =
      renderCodexConfig c entries pre :=
  renderCodexConfig_congr _ _ entries pre (strip_renderCodexConfig c entries pre he hp hcr)

/-- The rendered content holds exactly one begin and one end delimiter
line. -/
theorem renderCodexConfig_one_block (c : Str) (entries : List CodexConfigEntry) (pre : Str)
    (he : entriesOk entries) (hp : noNLCR pre) (hcr : '\r' ∉ c) :
    (rustLines (renderCodexConfig c entries pre)).count CODEX_BLOCK_BEGIN = 1 ∧
    (rustLines (renderCodexConfig c entries pre)).count CODEX_BLOCK_END = 1 := by
  set M0 := filterBlock CODEX_BLOCK_BEGIN CODEX_BLOCK_END false (rustLines c) with hM0def
  have hM0 : ∀ l ∈ M0, ('\n' ∉ l ∧ '\r' ∉ l) ∧ l ≠ CODEX_BLOCK_BEGIN ∧ l ≠ CODEX_BLOCK_END := by
    intro l hl
    have hmem := filterBlock_mem CODEX_BLOCK_BEGIN CODEX_BLOCK_END (rustLines c) false l hl
    refine ⟨⟨rustLines_no_nl c l hmem.1, fun hin => hcr (rustLines_subset c l hmem.1 '\r' hin)⟩,
      hmem.2⟩
  have hstrip : strip_managed_block c CODEX_BLOCK_BEGIN CODEX_BLOCK_END = joinNL (normTrail M0) := by
    unfold strip_managed_block
    exact trimTrailNL_joinNL M0 (fun l hl => (hM0 l hl).1.1)
  have hM'props : ∀ l ∈ normTrail M0,
      ('\n' ∉ l ∧ '\r' ∉ l) ∧ l ≠ CODEX_BLOCK_BEGIN ∧ l ≠ CODEX_BLOCK_END := by
    intro l hl
    rcases normTrail_mem M0 l hl with h | rfl
    · exact hM0 l h
    · exact ⟨⟨by simp, by simp⟩, by decide, by decide⟩
  have hblock : ∀ l ∈ codexBlockLines entries pre, '\n' ∉ l ∧ '\r' ∉ l :=
    codexBlockLines_noNLCR entries pre he hp
  have hcountB : (codexBlockLines entries pre).count CODEX_BLOCK_BEGIN = 1 := by
    rw [codexBlockLines_eq, List.count_cons_self, List.count_append]
    rw [List.count_eq_zero.mpr (fun hx => (codexMidLines_ne_markers entries pre _ hx).1 rfl)]
    rw [List.count_eq_zero.mpr (by intro hx; exact absurd (List.mem_singleton.mp hx) (by decide))]
  have hcountE : (codexBlockLines entries pre).count CODEX_BLOCK_END = 1 := by
    rw [codexBlockLines_eq, List.count_cons_of_ne (by decide), List.count_append]
    rw [List.count_eq_zero.mpr (fun hx => (codexMidLines_ne_markers entries pre _ hx).2 rfl)]
    rfl
  by_cases hMnil : normTrail M0 = []
  · have hSe : strip_managed_block c CODEX_BLOCK_BEGIN CODEX_BLOCK_END = [] := by
      rw [hstrip, hMnil]
      rfl
    have hrender : renderCodexConfig c entries pre = format_codex_config_block entries pre := by
      unfold renderCodexConfig
      rw [if_pos (by rw [hSe]; rfl)]
    rw [hrender]
    unfold format_codex_config_block
    rw [rustLines_joinNL _ hblock]
    exact ⟨hcountB, hcountE⟩
  · have hSne : ¬((strip_managed_block c CODEX_BLOCK_BEGIN CODEX_BLOCK_END).isEmpty = true) := by
      rw [hstrip]
      intro h
      exact hMnil ((joinNL_eq_nil_iff _).mp (List.isEmpty_iff.mp h))
    have hSlast : (strip_managed_block c CODEX_BLOCK_BEGIN CODEX_BLOCK_END).getLast? =
        some '\n' := by
      rw [hstrip]
      exact joinNL_getLast? _ hMnil
    have hrender : renderCodexConfig c entries pre =
        joinNL ((normTrail M0 ++ [[]]) ++ codexBlockLines entries pre) := by
      unfold renderCodexConfig
      rw [if_neg hSne, if_pos hSlast, hstrip, List.append_nil]
      unfold format_codex_config_block
      rw [joinNL_append, joinNL_append]
      rw [show joinNL ([[]] : List Str) = ['\n'] from rfl, List.append_assoc]
      rfl
    have hXlines : ∀ l ∈ (normTrail M0 ++ [[]]) ++ codexBlockLines entries pre,
        '\n' ∉ l ∧ '\r' ∉ l := by
      intro l hl
      rcases List.mem_append.mp hl with h1 | h2
      · rcases List.mem_append.mp h1 with h3 | h4
        · exact (hM'props l h3).1
        · rw [List.mem_singleton.mp h4]
          exact ⟨by simp, by simp⟩
      · exact hblock l h2
    rw [hrender, rustLines_joinNL _ hXlines]
    rw [List.count_append, List.count_append, List.count_append, List.count_append]
    rw [List.count_eq_zero.mpr (fun hx => (hM'props _ hx).2.1 rfl),
      List.count_eq_zero.mpr (fun hx => (hM'props _ hx).2.2 rfl)]
    refine ⟨?_, ?_⟩
    · rw [List.count_eq_zero.mpr (by intro hx; exact absurd (List.mem_singleton.mp hx) (by decide)), hcountB]
    · rw [List.count_eq_zero.mpr (by intro hx; exact absurd (List.mem_singleton.mp hx) (by decide)), hcountE]

/-- Reading back a just-written file yields the written content. -/
theorem FS.read_write (fs : FS) (p c : Str) : (fs.write p c).read p = some c := by
  unfold FS.read FS.write
  rw [List.find?_cons_of_pos _ (by simp)]
  rfl

/-- Entry whose description smuggles an end-delimiter line into the
rendered block. -/
def evilCodexEntry : CodexConfigEntry :=
  ⟨S "Dev", S "X" ++ '\n' :: S "# END forge-council agents" ++ '\n' :: S "Y"⟩

/-- C6 counterexample: with an entry whose description contains a line
equal to the end delimiter, a second call of the merger with the same
entries changes the file bytes, so the claimed unconditional idempotence
fails. -/
theorem C6_counterexample :
    (write_codex_config_block (S "cfg") [evilCodexEntry] [] false
        (write_codex_config_block (S "cfg") [evilCodexEntry] [] false ⟨[], []⟩).2).2.read (S "cfg") ≠
      (write_codex_config_block (S "cfg") [evilCodexEntry] [] false ⟨[], []⟩).2.read (S "cfg") := by
  decide

/-- C6 as amended: for entries and source prefixes free of newlines and
carriage returns, and prior file content free of carriage returns,
calling the merger twice with identical entries leaves the file bytes
identical to the first call, and calling it with any (possibly
different) entry set produces exactly one begin and one end delimiter
line while preserving the content outside the block markers in its
strip-normalized form (lines normalized to newline termination, any old
managed block removed, trailing blank lines trimmed), which is the byte
content the merger itself maintains outside the block. -/
theorem C6_managed_block_merge (fs : FS) (path : Str) (e1 e2 : List CodexConfigEntry)
    (p1 p2 : Str) (he1 : entriesOk e1) (he2 : entriesOk e2) (hp1 : noNLCR p1) (hp2 : noNLCR p2)
    (hcr : '\r' ∉ (fs.read path).getD []) :
    (write_codex_config_block path e1 p1 false
        (write_codex_config_block path e1 p1 false fs).2).2.read path =
      (write_codex_config_block path e1 p1 false fs).2.read path ∧
    (rustLines (renderCodexConfig ((fs.read path).getD []) e2 p2)).count CODEX_BLOCK_BEGIN = 1 ∧
    (rustLines (renderCodexConfig ((fs.read path).getD []) e2 p2)).count CODEX_BLOCK_END = 1 ∧
    strip_managed_block (renderCodexConfig ((fs.read path).getD []) e2 p2)
        CODEX_BLOCK_BEGIN CODEX_BLOCK_END =
      strip_managed_block ((fs.read path).getD []) CODEX_BLOCK_BEGIN CODEX_BLOCK_END := by
  refine ⟨?_, (renderCodexConfig_one_block _ e2 p2 he2 hp2 hcr).1,
    (renderCodexConfig_one_block _ e2 p2 he2 hp2 hcr).2,
    strip_renderCodexConfig _ e2 p2 he2 hp2 hcr⟩
  have h1 : (write_codex_config_block path e1 p1 false fs).2 =
      fs.write path (renderCodexConfig ((fs.read path).getD []) e1 p1) := rfl
  rw [h1]
  have h2 : ((fs.write path (renderCodexConfig ((fs.read path).getD []) e1 p1)).read path) =
      some (renderCodexConfig ((fs.read path).getD []) e1 p1) := FS.read_write _ _ _
  have h3 : (write_codex_config_block path e1 p1 false
        (fs.write path (renderCodexConfig ((fs.read path).getD []) e1 p1))).2 =
      (fs.write path (renderCodexConfig ((fs.read path).getD []) e1 p1)).write path
        (renderCodexConfig
          (((fs.write path (renderCodexConfig ((fs.read path).getD []) e1 p1)).read path).getD [])
          e1 p1) := rfl
  rw [h3, FS.read_write, h2]
  show some (renderCodexConfig (renderCodexConfig ((fs.read path).getD []) e1 p1) e1 p1) =
    some (renderCodexConfig ((fs.read path).getD []) e1 p1)
  rw [renderCodexConfig_idem _ e1 p1 he1 hp1 hcr]

/-- Prior configuration file for the C6 witness. -/
def fsCodexPrior : FS :=
  ⟨[(S "cfg/config.toml", S "[features]" ++ '\n' :: S "multi_agent = true" ++ ['\n'])], []⟩

/-- Witness for C6 as amended, at a concrete prior file and entries. -/
theorem C6_managed_block_merge_witness :
    (write_codex_config_block (S "cfg/config.toml") [⟨S "Dev", S "Developer"⟩] (S "fc") false
        (write_codex_config_block (S "cfg/config.toml") [⟨S "Dev", S "Developer"⟩] (S "fc") false
          fsCodexPrior).2).2.read (S "cfg/config.toml") =
      (write_codex_config_block (S "cfg/config.toml") [⟨S "Dev", S "Developer"⟩] (S "fc") false
        fsCodexPrior).2.read (S "cfg/config.toml") ∧
    (rustLines (renderCodexConfig ((fsCodexPrior.read (S "cfg/config.toml")).getD [])
        [⟨S "QA", S "Tester"⟩] (S "fc2"))).count CODEX_BLOCK_BEGIN = 1 ∧
    (rustLines (renderCodexConfig ((fsCodexPrior.read (S "cfg/config.toml")).getD [])
        [⟨S "QA", S "Tester"⟩] (S "fc2"))).count CODEX_BLOCK_END = 1 ∧
    strip_managed_block (renderCodexConfig ((fsCodexPrior.read (S "cfg/config.toml")).getD [])
        [⟨S "QA", S "Tester"⟩] (S "fc2")) CODEX_BLOCK_BEGIN CODEX_BLOCK_END =
      strip_managed_block ((fsCodexPrior.read (S "cfg/config.toml")).getD [])
        CODEX_BLOCK_BEGIN CODEX_BLOCK_END :=
  C6_managed_block_merge fsCodexPrior (S "cfg/config.toml") [⟨S "Dev", S "Developer"⟩]
    [⟨S "QA", S "Tester"⟩] (S "fc") (S "fc2") (by decide) (by decide) (by decide) (by decide)
    (by decide)

end Forge
